import Mathlib

/-!
# Cotangent weights of simplicial meshes (`igl::cotangent`)

A shallow embedding of `src/cotangent.cpp`.  The scalar type `MatC::Scalar`
is a linearly ordered field `α` (exact arithmetic); the square root used by the
triangle branch is a parameter `sqrt`, instantiated with `Real.sqrt` in the
theorems about real arithmetic.  Division follows the field convention
`x / 0 = 0`; the IEEE values the program produces for a zero divisor are
non-finite, and in both readings the comparison `Kj(k,k) > 0` of a
zero-volume element is false.

* `V` is a list of rows, each a 3D point (`V.row(i)` is `V[i]?`).
* `F` is an index matrix: its column count and its list of rows.
* `C` is the in/out weight matrix: row count, column count and rows.

Row and column counts are the values `F.rows()` and `F.cols()` hand to the
`int` variables `m` and `simplex_size`.  Reading a coefficient of `F` or a row
of `V` that does not exist is undefined behaviour in the source; the embedding
reports it as `Outcome.undefined`.
-/

namespace igl

/-- A row of the vertex array, or a `Vec3` of the tetrahedron branch. -/
structure Vec3 (α : Type) where
  x : α
  y : α
  z : α
deriving DecidableEq

/-- The element array `F`: `cols` is `F.cols()`, `data` lists the rows. -/
structure MatF where
  cols : Nat
  data : List (List Nat)
deriving DecidableEq

/-- The weight array `C`: `rows × cols` as set by `C.resize`, `data` lists the rows. -/
structure MatC (α : Type) where
  rows : Nat
  cols : Nat
  data : List (List α)
deriving DecidableEq

/-- A `Mat3` given by its three rows (`JTj.row(0)`, `JTj.row(1)`, `JTj.row(2)`). -/
structure Mat3 (α : Type) where
  row0 : Vec3 α
  row1 : Vec3 α
  row2 : Vec3 α
deriving DecidableEq

/-- How a call of `cotangent` ends. -/
inductive Outcome (α : Type) where
  /-- Normal return; `C` is the content of the output parameter, `flipped`
  tells whether the advisory message of the sign flip was emitted. -/
  | returned (C : MatC α) (flipped : Bool)
  /-- The final `else`: the message "Simplex size (%d) not supported" goes to
  `stderr` and `assert(false)` fires; `C` is the untouched output parameter. -/
  | unsupported (simplex_size : Nat) (C : MatC α)
  /-- An index of `F` or of `V` was out of range. -/
  | undefined
deriving DecidableEq

section defs

variable {α : Type} [LinearOrderedField α]

/-- `F.rows()`. -/
def MatF.rows (F : MatF) : Nat := F.data.length

/-- Difference of two vectors, `p - q`. -/
def Vec3.sub (p q : Vec3 α) : Vec3 α := ⟨p.x - q.x, p.y - q.y, p.z - q.z⟩

/-- Sum of two vectors. -/
def Vec3.add (p q : Vec3 α) : Vec3 α := ⟨p.x + q.x, p.y + q.y, p.z + q.z⟩

/-- Scalar multiple `k * p`. -/
def Vec3.smul (k : α) (p : Vec3 α) : Vec3 α := ⟨k * p.x, k * p.y, k * p.z⟩

/-- Dot product. -/
def Vec3.dot (p q : Vec3 α) : α := p.x * q.x + p.y * q.y + p.z * q.z

/-- Cross product. -/
def Vec3.cross (p q : Vec3 α) : Vec3 α :=
  ⟨p.y * q.z - p.z * q.y, p.z * q.x - p.x * q.z, p.x * q.y - p.y * q.x⟩

/-- The expression `p.array().pow(2).sum()`. -/
def Vec3.pow2sum (p : Vec3 α) : α := p.x ^ 2 + p.y ^ 2 + p.z ^ 2

/-! ### Triangle branch (lines 17-46) -/

/-- Edge lengths `l(i,0)`, `l(i,1)`, `l(i,2)` of the triangle `(v0,v1,v2)`,
numbered like the opposite vertices (lines 25-27). -/
def l (sqrt : α → α) (v0 v1 v2 : Vec3 α) : α × α × α :=
  (sqrt (v1.sub v2).pow2sum, sqrt (v2.sub v0).pow2sum, sqrt (v0.sub v1).pow2sum)

/-- Semiperimeter `s(i)` from the edge lengths (line 30). -/
def s (li : α × α × α) : α := (li.1 + li.2.1 + li.2.2) * (1 / 2)

/-- Doubled area `dblA(i)` by Heron's formula (line 36). -/
def dblA (sqrt : α → α) (li : α × α × α) : α :=
  2 * sqrt (s li * (s li - li.1) * (s li - li.2.1) * (s li - li.2.2))

/-- The row `C(i,0)`, `C(i,1)`, `C(i,2)` from the edge lengths (lines 43-45). -/
def triangleRow (sqrt : α → α) (li : α × α × α) : List α :=
  [ (li.2.1 * li.2.1 + li.2.2 * li.2.2 - li.1 * li.1) / dblA sqrt li / 4,
    (li.2.2 * li.2.2 + li.1 * li.1 - li.2.1 * li.2.1) / dblA sqrt li / 4,
    (li.1 * li.1 + li.2.1 * li.2.1 - li.2.2 * li.2.2) / dblA sqrt li / 4 ]

/-- The reads `F(i,0)`, `F(i,1)`, `F(i,2)` of the row `r` of `F` and the three
rows of `V` they name (lines 25-27). -/
def readTriangle (V : List (Vec3 α)) (r : List Nat) : Option (Vec3 α × Vec3 α × Vec3 α) := do
  let i0 ← r[0]?
  let i1 ← r[1]?
  let i2 ← r[2]?
  let v0 ← V[i0]?
  let v1 ← V[i1]?
  let v2 ← V[i2]?
  pure (v0, v1, v2)

/-- The work of the triangle loops for the row `r` of `F`: the row of `C`. -/
def triangleElement (sqrt : α → α) (V : List (Vec3 α)) (r : List Nat) : Option (List α) :=
  match readTriangle V r with
  | none => none
  | some (v0, v1, v2) => some (triangleRow sqrt (l sqrt v0 v1 v2))

/-- The loops over faces: rows of `C` in the order of the rows of `F`. -/
def triangleLoop (sqrt : α → α) (V : List (Vec3 α)) : List (List Nat) → Option (List (List α))
  | [] => some []
  | r :: rs =>
    match triangleElement sqrt V r with
    | none => none
    | some row =>
      match triangleLoop sqrt V rs with
      | none => none
      | some rows => some (row :: rows)

/-! ### Tetrahedron branch (lines 47-118) -/

/-- The right hand side `rhs` (lines 57-61), column `k`. -/
def rhs : Fin 4 → Vec3 α
  | 0 => ⟨1, 0, 0⟩
  | 1 => ⟨0, 1, 0⟩
  | 2 => ⟨0, 0, 1⟩
  | 3 => ⟨-1, -1, -1⟩

/-- The matrix `JTj` with rows `pa-pd`, `pb-pd`, `pc-pd` (lines 88-91). -/
def JTj (pa pb pc pd : Vec3 α) : Mat3 α := ⟨pa.sub pd, pb.sub pd, pc.sub pd⟩

/-- `A.determinant()` of a 3×3 matrix (expansion along the first row). -/
def Mat3.determinant (A : Mat3 α) : α :=
  A.row0.x * (A.row1.y * A.row2.z - A.row1.z * A.row2.y)
  - A.row0.y * (A.row1.x * A.row2.z - A.row1.z * A.row2.x)
  + A.row0.z * (A.row1.x * A.row2.y - A.row1.y * A.row2.x)

/-- `A.inverse()` of a 3×3 matrix: the transposed cofactors times `1/det`. -/
def Mat3.inverse (A : Mat3 α) : Mat3 α :=
  let invdet := 1 / A.determinant
  ⟨⟨(A.row1.y * A.row2.z - A.row1.z * A.row2.y) * invdet,
    (A.row0.z * A.row2.y - A.row0.y * A.row2.z) * invdet,
    (A.row0.y * A.row1.z - A.row0.z * A.row1.y) * invdet⟩,
   ⟨(A.row1.z * A.row2.x - A.row1.x * A.row2.z) * invdet,
    (A.row0.x * A.row2.z - A.row0.z * A.row2.x) * invdet,
    (A.row0.z * A.row1.x - A.row0.x * A.row1.z) * invdet⟩,
   ⟨(A.row1.x * A.row2.y - A.row1.y * A.row2.x) * invdet,
    (A.row0.y * A.row2.x - A.row0.x * A.row2.y) * invdet,
    (A.row0.x * A.row1.y - A.row0.y * A.row1.x) * invdet⟩⟩

/-- Matrix-vector product `A * v`. -/
def Mat3.mulVec (A : Mat3 α) (v : Vec3 α) : Vec3 α :=
  ⟨A.row0.dot v, A.row1.dot v, A.row2.dot v⟩

/-- `volume = fabs(JTj.determinant())/6.0` (line 95). -/
def volume (pa pb pc pd : Vec3 α) : α := |(JTj pa pb pc pd).determinant| / 6

/-- `Ej = JTj.inverse() * rhs` (line 100), column `k`. -/
def Ej (pa pb pc pd : Vec3 α) (k : Fin 4) : Vec3 α :=
  (JTj pa pb pc pd).inverse.mulVec (rhs k)

/-- `EjTEj = Ej.transpose() * Ej` (line 102). -/
def EjTEj (pa pb pc pd : Vec3 α) (i k : Fin 4) : α :=
  (Ej pa pb pc pd i).dot (Ej pa pb pc pd k)

/-- `Kj = EjTEj*volume` (line 105). -/
def Kj (pa pb pc pd : Vec3 α) (i k : Fin 4) : α :=
  EjTEj pa pb pc pd i k * volume pa pb pc pd

/-- The conjunction `Kj(0,0)>0 & Kj(1,1)>0 & Kj(2,2)>0 & Kj(3,3)>0` (line 106). -/
def diagPos (pa pb pc pd : Vec3 α) : Bool :=
  decide (Kj pa pb pc pd 0 0 > 0) && decide (Kj pa pb pc pd 1 1 > 0) &&
  decide (Kj pa pb pc pd 2 2 > 0) && decide (Kj pa pb pc pd 3 3 > 0)

/-- The row `C(j,0..5)` as assigned in the loop (lines 107-112). -/
def tetRow (pa pb pc pd : Vec3 α) : List α :=
  [ Kj pa pb pc pd 1 2, Kj pa pb pc pd 2 0, Kj pa pb pc pd 0 1,
    Kj pa pb pc pd 3 0, Kj pa pb pc pd 3 1, Kj pa pb pc pd 3 2 ]

/-- The reads `a = F(j,0)`, ..., `d = F(j,3)` of the row `r` of `F` and the
points `pa`, `pb`, `pc`, `pd` (lines 70-81). -/
def readTet (V : List (Vec3 α)) (r : List Nat) :
    Option (Vec3 α × Vec3 α × Vec3 α × Vec3 α) := do
  let a ← r[0]?
  let b ← r[1]?
  let c ← r[2]?
  let d ← r[3]?
  let pa ← V[a]?
  let pb ← V[b]?
  let pc ← V[c]?
  let pd ← V[d]?
  pure (pa, pb, pc, pd)

/-- One pass of the loop body for the row `r` of `F`: the value and-ed into
`diag_all_pos` and the row written to `C`. -/
def tetElement (V : List (Vec3 α)) (r : List Nat) : Option (Bool × List α) :=
  match readTet V r with
  | none => none
  | some (pa, pb, pc, pd) => some (diagPos pa pb pc pd, tetRow pa pb pc pd)

/-- The loop over tetrahedra (lines 67-113) from the state `diag_all_pos`,
`rows` (the rows of `C` written so far). -/
def tetLoop (V : List (Vec3 α)) :
    List (List Nat) → Bool → List (List α) → Option (Bool × List (List α))
  | [], diag_all_pos, rows => some (diag_all_pos, rows)
  | r :: rs, diag_all_pos, rows =>
    match tetElement V r with
    | none => none
    | some (pos, row) => tetLoop V rs (diag_all_pos && pos) (rows ++ [row])

/-- `C *= -1.0` on the rows of `C` (line 117). -/
def negate (rows : List (List α)) : List (List α) :=
  rows.map (fun row => row.map (fun c => c * (-1)))

/-- `igl::cotangent(V, F, C)`. -/
def cotangent (sqrt : α → α) (V : List (Vec3 α)) (F : MatF) (C : MatC α) : Outcome α :=
  let simplex_size := F.cols
  let m := F.rows
  if simplex_size = 3 then
    match triangleLoop sqrt V F.data with
    | none => .undefined
    | some rows => .returned ⟨m, 3, rows⟩ false
  else if simplex_size = 4 then
    match tetLoop V F.data true [] with
    | none => .undefined
    | some (diag_all_pos, rows) =>
      if diag_all_pos then .returned ⟨m, 6, negate rows⟩ true
      else .returned ⟨m, 6, rows⟩ false
  else
    .unsupported simplex_size C

/-- Every row of `F` has `F.cols()` entries and every entry is a row index of `V`. -/
def MatF.Valid (F : MatF) (V : List (Vec3 α)) : Prop :=
  ∀ r ∈ F.data, r.length = F.cols ∧ ∀ i ∈ r, i < V.length

/-! ### Notions used to state the properties -/

/-- Half the cotangent of the interior angle at `p` of the triangle `p q r`: the
dot product of the edge vectors leaving `p` over twice the norm of their cross
product. -/
def halfCotangentAt (sqrt : α → α) (p q r : Vec3 α) : α :=
  (q.sub p).dot (r.sub p) / (2 * sqrt ((q.sub p).cross (r.sub p)).pow2sum)

/-- The rows of a matrix permuted by `p`: row `i` of the result is row `p i`. -/
def permuteRows {β : Type} {n : Nat} (p : Equiv.Perm (Fin n)) (rows : List (List β)) :
    List (List β) :=
  List.ofFn (fun i : Fin n => rows.getD (p i) [])

/-- The entries of a row of three read through the permutation `p`: entry `k` of
the result is entry `p k`. -/
def permuteEntries {β : Type} (d : β) (p : Equiv.Perm (Fin 3)) (row : List β) : List β :=
  List.ofFn (fun k : Fin 3 => row.getD (p k) d)

end defs

/-! ## Reading the element rows -/

section reads

variable {α : Type}

theorem readTriangle_eq_some_iff (V : List (Vec3 α)) (r : List Nat) (v0 v1 v2 : Vec3 α) :
    readTriangle V r = some (v0, v1, v2) ↔
      ∃ i0 i1 i2, r[0]? = some i0 ∧ r[1]? = some i1 ∧ r[2]? = some i2 ∧
        V[i0]? = some v0 ∧ V[i1]? = some v1 ∧ V[i2]? = some v2 := by
  unfold readTriangle
  simp only [Option.bind_eq_bind, Option.pure_def, Option.bind_eq_some, Option.some.injEq,
    Prod.mk.injEq]
  constructor
  · rintro ⟨i0, h0, i1, h1, i2, h2, w0, hw0, w1, hw1, w2, hw2, rfl, rfl, rfl⟩
    exact ⟨i0, i1, i2, h0, h1, h2, hw0, hw1, hw2⟩
  · rintro ⟨i0, i1, i2, h0, h1, h2, hw0, hw1, hw2⟩
    exact ⟨i0, h0, i1, h1, i2, h2, v0, hw0, v1, hw1, v2, hw2, rfl, rfl, rfl⟩

theorem readTet_eq_some_iff (V : List (Vec3 α)) (r : List Nat) (pa pb pc pd : Vec3 α) :
    readTet V r = some (pa, pb, pc, pd) ↔
      ∃ a b c d, r[0]? = some a ∧ r[1]? = some b ∧ r[2]? = some c ∧ r[3]? = some d ∧
        V[a]? = some pa ∧ V[b]? = some pb ∧ V[c]? = some pc ∧ V[d]? = some pd := by
  unfold readTet
  simp only [Option.bind_eq_bind, Option.pure_def, Option.bind_eq_some, Option.some.injEq,
    Prod.mk.injEq]
  constructor
  · rintro ⟨a, ha, b, hb, c, hc, d, hd, wa, hwa, wb, hwb, wc, hwc, wd, hwd, rfl, rfl, rfl, rfl⟩
    exact ⟨a, b, c, d, ha, hb, hc, hd, hwa, hwb, hwc, hwd⟩
  · rintro ⟨a, b, c, d, ha, hb, hc, hd, hwa, hwb, hwc, hwd⟩
    exact ⟨a, ha, b, hb, c, hc, d, hd, pa, hwa, pb, hwb, pc, hwc, pd, hwd, rfl, rfl, rfl, rfl⟩

theorem readTriangle_isSome_of_valid (V : List (Vec3 α)) (r : List Nat)
    (hlen : r.length = 3) (hidx : ∀ i ∈ r, i < V.length) :
    ∃ v0 v1 v2, readTriangle V r = some (v0, v1, v2) := by
  match r, hlen with
  | [i0, i1, i2], _ =>
    have h0 : i0 < V.length := hidx i0 (by simp)
    have h1 : i1 < V.length := hidx i1 (by simp)
    have h2 : i2 < V.length := hidx i2 (by simp)
    refine ⟨V[i0], V[i1], V[i2], ?_⟩
    rw [readTriangle_eq_some_iff]
    exact ⟨i0, i1, i2, rfl, rfl, rfl, List.getElem?_eq_getElem h0,
      List.getElem?_eq_getElem h1, List.getElem?_eq_getElem h2⟩

theorem readTet_isSome_of_valid (V : List (Vec3 α)) (r : List Nat)
    (hlen : r.length = 4) (hidx : ∀ i ∈ r, i < V.length) :
    ∃ pa pb pc pd, readTet V r = some (pa, pb, pc, pd) := by
  match r, hlen with
  | [a, b, c, d], _ =>
    have ha : a < V.length := hidx a (by simp)
    have hb : b < V.length := hidx b (by simp)
    have hc : c < V.length := hidx c (by simp)
    have hd : d < V.length := hidx d (by simp)
    refine ⟨V[a], V[b], V[c], V[d], ?_⟩
    rw [readTet_eq_some_iff]
    exact ⟨a, b, c, d, rfl, rfl, rfl, rfl, List.getElem?_eq_getElem ha,
      List.getElem?_eq_getElem hb, List.getElem?_eq_getElem hc, List.getElem?_eq_getElem hd⟩

theorem forall₂_getElem? {β γ : Type} {R : β → γ → Prop} {l₁ : List β} {l₂ : List γ}
    (h : List.Forall₂ R l₁ l₂) (i : Nat) (x : β) (hx : l₁[i]? = some x) :
    ∃ y, l₂[i]? = some y ∧ R x y := by
  induction h generalizing i with
  | nil => simp at hx
  | cons hab _ ih =>
    cases i with
    | zero =>
      simp only [List.getElem?_cons_zero, Option.some.injEq] at hx
      subst hx
      exact ⟨_, by simp, hab⟩
    | succ i =>
      simp only [List.getElem?_cons_succ] at hx ⊢
      exact ih i hx

theorem forall₂_of_forall_exists {β γ : Type} {R : β → γ → Prop} (l₁ : List β)
    (h : ∀ x ∈ l₁, ∃ y, R x y) : ∃ l₂, List.Forall₂ R l₁ l₂ := by
  induction l₁ with
  | nil => exact ⟨[], List.Forall₂.nil⟩
  | cons x xs ih =>
    obtain ⟨y, hy⟩ := h x (by simp)
    obtain ⟨ys, hys⟩ := ih (fun x hx => h x (by simp [hx]))
    exact ⟨y :: ys, List.Forall₂.cons hy hys⟩

end reads

/-! ## The loops and the dispatch -/

section loops

variable {α : Type} [LinearOrderedField α]

/-- The triangle loops return exactly when every row can be read, and then row by row. -/
theorem triangleLoop_eq_some_iff (sqrt : α → α) (V : List (Vec3 α)) (rs : List (List Nat))
    (rows : List (List α)) :
    triangleLoop sqrt V rs = some rows ↔
      List.Forall₂ (fun r row => triangleElement sqrt V r = some row) rs rows := by
  induction rs generalizing rows with
  | nil =>
    cases rows <;> simp [triangleLoop]
  | cons r rs ih =>
    unfold triangleLoop
    cases h : triangleElement sqrt V r with
    | none =>
      simp only [reduceCtorEq, false_iff]
      intro hf
      cases hf with
      | cons h1 _ => simp [h] at h1
    | some row =>
      cases h2 : triangleLoop sqrt V rs with
      | none =>
        simp only [reduceCtorEq, false_iff]
        intro hf
        cases hf with
        | cons h1 h3 =>
          rw [← ih] at h3
          simp [h2] at h3
      | some rows2 =>
        simp only [Option.some.injEq]
        constructor
        · rintro rfl
          exact List.Forall₂.cons h ((ih rows2).1 h2)
        · intro hf
          cases hf with
          | cons h1 h3 =>
            rw [h] at h1
            rw [← ih, h2] at h3
            simp only [Option.some.injEq] at h1 h3
            rw [h1, h3]

/-- The tetrahedron loop returns exactly when every row can be read; the flag is
the conjunction of the initial flag with the per-element checks and the rows
are appended in order. -/
theorem tetLoop_eq_some_iff (V : List (Vec3 α)) (rs : List (List Nat)) (flag : Bool)
    (acc : List (List α)) (res : Bool × List (List α)) :
    tetLoop V rs flag acc = some res ↔
      ∃ prs : List (Bool × List α),
        List.Forall₂ (fun r pr => tetElement V r = some pr) rs prs ∧
        res = (flag && prs.all (fun pr => pr.1), acc ++ prs.map (fun pr => pr.2)) := by
  induction rs generalizing flag acc with
  | nil =>
    simp [tetLoop, eq_comm]
  | cons r rs ih =>
    unfold tetLoop
    cases h : tetElement V r with
    | none =>
      simp only [reduceCtorEq, false_iff]
      rintro ⟨prs, hf, -⟩
      cases hf with
      | cons h1 _ => simp [h] at h1
    | some pr =>
      obtain ⟨pos, row⟩ := pr
      simp only
      rw [ih]
      constructor
      · rintro ⟨prs, hf, rfl⟩
        refine ⟨(pos, row) :: prs, List.Forall₂.cons h hf, ?_⟩
        simp [Bool.and_assoc]
      · rintro ⟨prs, hf, rfl⟩
        cases hf with
        | cons h1 h3 =>
          rw [h] at h1
          simp only [Option.some.injEq] at h1
          subst h1
          refine ⟨_, h3, ?_⟩
          simp [Bool.and_assoc]

theorem cotangent_of_triangleLoop (sqrt : α → α) (V : List (Vec3 α)) (F : MatF) (C0 : MatC α)
    (hc : F.cols = 3) (rows : List (List α)) (h : triangleLoop sqrt V F.data = some rows) :
    cotangent sqrt V F C0 = .returned ⟨F.rows, 3, rows⟩ false := by
  simp [cotangent, hc, h]

theorem cotangent_of_tetLoop (sqrt : α → α) (V : List (Vec3 α)) (F : MatF) (C0 : MatC α)
    (hc : F.cols = 4) (flag : Bool) (rows : List (List α))
    (h : tetLoop V F.data true [] = some (flag, rows)) :
    cotangent sqrt V F C0 =
      .returned ⟨F.rows, 6, if flag then negate rows else rows⟩ flag := by
  cases flag <;> simp [cotangent, hc, h]

theorem cotangent_unsupported (sqrt : α → α) (V : List (Vec3 α)) (F : MatF) (C0 : MatC α)
    (h3 : F.cols ≠ 3) (h4 : F.cols ≠ 4) :
    cotangent sqrt V F C0 = .unsupported F.cols C0 := by
  simp [cotangent, h3, h4]

theorem cotangent_ne_unsupported (sqrt : α → α) (V : List (Vec3 α)) (F : MatF) (C0 : MatC α)
    (h : F.cols = 3 ∨ F.cols = 4) (n : Nat) (C : MatC α) :
    cotangent sqrt V F C0 ≠ .unsupported n C := by
  rcases h with h | h
  · cases ht : triangleLoop sqrt V F.data <;> simp [cotangent, h, ht]
  · cases ht : tetLoop V F.data true [] with
    | none => simp [cotangent, h, ht]
    | some res =>
      obtain ⟨flag, rows⟩ := res
      cases flag <;> simp [cotangent, h, ht]

end loops

section shape

variable {α : Type} [LinearOrderedField α]

theorem triangleElement_of_read (sqrt : α → α) (V : List (Vec3 α)) (r : List Nat)
    (v0 v1 v2 : Vec3 α) (h : readTriangle V r = some (v0, v1, v2)) :
    triangleElement sqrt V r = some (triangleRow sqrt (l sqrt v0 v1 v2)) := by
  simp [triangleElement, h]

theorem tetElement_of_read (V : List (Vec3 α)) (r : List Nat)
    (pa pb pc pd : Vec3 α) (h : readTet V r = some (pa, pb, pc, pd)) :
    tetElement V r = some (diagPos pa pb pc pd, tetRow pa pb pc pd) := by
  simp [tetElement, h]

theorem triangleElement_length (sqrt : α → α) (V : List (Vec3 α)) (r : List Nat) (row : List α)
    (h : triangleElement sqrt V r = some row) : row.length = 3 := by
  unfold triangleElement at h
  cases hr : readTriangle V r with
  | none => simp [hr] at h
  | some p =>
    obtain ⟨v0, v1, v2⟩ := p
    simp only [hr, Option.some.injEq] at h
    subst h
    rfl

theorem tetElement_length (V : List (Vec3 α)) (r : List Nat) (pr : Bool × List α)
    (h : tetElement V r = some pr) : pr.2.length = 6 := by
  unfold tetElement at h
  cases hr : readTet V r with
  | none => simp [hr] at h
  | some p =>
    obtain ⟨pa, pb, pc, pd⟩ := p
    simp only [hr, Option.some.injEq] at h
    subst h
    rfl

theorem negate_length (rows : List (List α)) : (negate rows).length = rows.length := by
  simp [negate]

theorem negate_row_length (rows : List (List α)) (n : Nat) (h : ∀ row ∈ rows, row.length = n) :
    ∀ row ∈ negate rows, row.length = n := by
  intro row hrow
  simp only [negate, List.mem_map] at hrow
  obtain ⟨row0, h0, rfl⟩ := hrow
  simpa using h row0 h0

/-- On a valid triangle batch the loops return, one row of three entries per element. -/
theorem triangleLoop_of_valid (sqrt : α → α) (V : List (Vec3 α)) (F : MatF)
    (hc : F.cols = 3) (hv : F.Valid V) :
    ∃ rows, triangleLoop sqrt V F.data = some rows ∧
      List.Forall₂ (fun r row => triangleElement sqrt V r = some row) F.data rows := by
  have : ∃ rows, List.Forall₂ (fun r row => triangleElement sqrt V r = some row) F.data rows := by
    apply forall₂_of_forall_exists
    intro r hr
    obtain ⟨hlen, hidx⟩ := hv r hr
    obtain ⟨v0, v1, v2, h⟩ := readTriangle_isSome_of_valid V r (hlen.trans hc) hidx
    exact ⟨_, triangleElement_of_read sqrt V r v0 v1 v2 h⟩
  obtain ⟨rows, h⟩ := this
  exact ⟨rows, (triangleLoop_eq_some_iff sqrt V F.data rows).2 h, h⟩

/-- On a valid tetrahedron batch the loop returns. -/
theorem tetLoop_of_valid (V : List (Vec3 α)) (F : MatF) (hc : F.cols = 4) (hv : F.Valid V) :
    ∃ prs : List (Bool × List α),
      List.Forall₂ (fun r pr => tetElement V r = some pr) F.data prs ∧
      tetLoop V F.data true [] = some (prs.all (fun pr => pr.1), prs.map (fun pr => pr.2)) := by
  have : ∃ prs, List.Forall₂ (fun r pr => tetElement V r = some pr) F.data prs := by
    apply forall₂_of_forall_exists
    intro r hr
    obtain ⟨hlen, hidx⟩ := hv r hr
    obtain ⟨pa, pb, pc, pd, h⟩ := readTet_isSome_of_valid V r (hlen.trans hc) hidx
    exact ⟨_, tetElement_of_read V r pa pb pc pd h⟩
  obtain ⟨prs, h⟩ := this
  refine ⟨prs, h, ?_⟩
  rw [tetLoop_eq_some_iff]
  exact ⟨prs, h, by simp⟩

end shape

/-! ## Dispatch on the simplex size and shape of the output -/

section dispatch

variable {α : Type} [LinearOrderedField α]

/-- C1: for every V and every F whose column count is neither 3 nor 4, the call
fails with the unsupported-simplex-size error and leaves the output parameter
`C` exactly as it was passed in (no weight array is computed, not even a partial
one); and for every F with 3 or 4 columns this error is not raised. -/
theorem C1_unsupported_simplex_size (sqrt : α → α) (V : List (Vec3 α)) (F : MatF)
    (C0 : MatC α) :
    (F.cols ≠ 3 → F.cols ≠ 4 → cotangent sqrt V F C0 = .unsupported F.cols C0) ∧
    (F.cols = 3 ∨ F.cols = 4 → ∀ n C, cotangent sqrt V F C0 ≠ .unsupported n C) :=
  ⟨cotangent_unsupported sqrt V F C0, fun h n C => cotangent_ne_unsupported sqrt V F C0 h n C⟩

/-- A 5-column element array against a previously filled `C`: the error is raised
and `C` is unchanged. -/
theorem C1_unsupported_simplex_size_witness :
    ((⟨5, [[0, 1, 2, 3, 4]]⟩ : MatF).cols ≠ 3 ∧ (⟨5, [[0, 1, 2, 3, 4]]⟩ : MatF).cols ≠ 4) ∧
    cotangent (fun x : ℚ => x) [⟨0, 0, 0⟩] ⟨5, [[0, 1, 2, 3, 4]]⟩ ⟨1, 1, [[7]]⟩ =
      .unsupported 5 ⟨1, 1, [[7]]⟩ :=
  ⟨⟨by decide, by decide⟩,
    (C1_unsupported_simplex_size (fun x : ℚ => x) [⟨0, 0, 0⟩] ⟨5, [[0, 1, 2, 3, 4]]⟩
      ⟨1, 1, [[7]]⟩).1 (by decide) (by decide)⟩

/-- C2: for every V and every F with m rows (m ≥ 0) whose indices reference rows
of V, `cotangent` returns an output with exactly m rows, each of exactly 3 entries
(and 3 columns) when F has 3 columns and of exactly 6 entries (and 6 columns)
when F has 4 columns. -/
theorem C2_output_shape (sqrt : α → α) (V : List (Vec3 α)) (F : MatF) (C0 : MatC α)
    (hv : F.Valid V) :
    (F.cols = 3 → ∃ C flipped, cotangent sqrt V F C0 = .returned C flipped ∧
      C.rows = F.rows ∧ C.cols = 3 ∧ C.data.length = F.rows ∧ ∀ row ∈ C.data, row.length = 3) ∧
    (F.cols = 4 → ∃ C flipped, cotangent sqrt V F C0 = .returned C flipped ∧
      C.rows = F.rows ∧ C.cols = 6 ∧ C.data.length = F.rows ∧ ∀ row ∈ C.data, row.length = 6) := by
  constructor
  · intro hc
    obtain ⟨rows, hl, hf⟩ := triangleLoop_of_valid sqrt V F hc hv
    refine ⟨_, _, cotangent_of_triangleLoop sqrt V F C0 hc rows hl, rfl, rfl, ?_, ?_⟩
    · exact hf.length_eq.symm
    · intro row hrow
      obtain ⟨i, hi, rfl⟩ := List.getElem_of_mem hrow
      have hi2 : i < F.data.length := by rw [hf.length_eq]; exact hi
      obtain ⟨y, hy, hR⟩ := forall₂_getElem? hf i F.data[i] (List.getElem?_eq_getElem hi2)
      rw [List.getElem?_eq_getElem hi, Option.some.injEq] at hy
      subst hy
      exact triangleElement_length sqrt V _ _ hR
  · intro hc
    obtain ⟨prs, hf, hl⟩ := tetLoop_of_valid V F hc hv
    have hrows : ∀ row ∈ prs.map (fun pr => pr.2), row.length = 6 := by
      intro row hrow
      simp only [List.mem_map] at hrow
      obtain ⟨pr, hpr, rfl⟩ := hrow
      obtain ⟨i, hi, rfl⟩ := List.getElem_of_mem hpr
      have hi2 : i < F.data.length := by rw [hf.length_eq]; exact hi
      obtain ⟨y, hy, hR⟩ := forall₂_getElem? hf i F.data[i] (List.getElem?_eq_getElem hi2)
      rw [List.getElem?_eq_getElem hi, Option.some.injEq] at hy
      subst hy
      exact tetElement_length V _ _ hR
    refine ⟨_, _, cotangent_of_tetLoop sqrt V F C0 hc _ _ hl, rfl, rfl, ?_, ?_⟩
    · have hlen : (prs.map (fun pr => pr.2)).length = F.rows := by
        simpa using hf.length_eq.symm
      cases prs.all (fun pr => pr.1) <;> simp [negate_length, hlen]
    · cases prs.all (fun pr => pr.1)
      · simpa using hrows
      · simpa using negate_row_length _ 6 hrows

/-- A valid batch of two tetrahedra: two rows of six entries. -/
theorem C2_output_shape_witness :
    (⟨4, [[0, 1, 2, 3], [1, 0, 2, 3]]⟩ : MatF).Valid
      ([⟨0, 0, 0⟩, ⟨1, 0, 0⟩, ⟨0, 1, 0⟩, ⟨0, 0, 1⟩] : List (Vec3 ℚ)) ∧
    ∃ C flipped, cotangent (fun x : ℚ => x) [⟨0, 0, 0⟩, ⟨1, 0, 0⟩, ⟨0, 1, 0⟩, ⟨0, 0, 1⟩]
        ⟨4, [[0, 1, 2, 3], [1, 0, 2, 3]]⟩ ⟨0, 0, []⟩ = .returned C flipped ∧
      C.rows = 2 ∧ C.cols = 6 ∧ C.data.length = 2 ∧ ∀ row ∈ C.data, row.length = 6 :=
  ⟨by simp [MatF.Valid],
    (C2_output_shape (fun x : ℚ => x) [⟨0, 0, 0⟩, ⟨1, 0, 0⟩, ⟨0, 1, 0⟩, ⟨0, 0, 1⟩]
      ⟨4, [[0, 1, 2, 3], [1, 0, 2, 3]]⟩ ⟨0, 0, []⟩ (by simp [MatF.Valid])).2 rfl⟩

end dispatch

/-! ## What a valid batch returns -/

section batch

variable {α : Type} [LinearOrderedField α]

/-- What a valid triangle batch returns: the row of every element is the
`triangleRow` of its three vertices. -/
theorem cotangent_triangle_rows (sqrt : α → α) (V : List (Vec3 α)) (F : MatF) (C0 : MatC α)
    (hc : F.cols = 3) (hv : F.Valid V) :
    ∃ rows, cotangent sqrt V F C0 = .returned ⟨F.rows, 3, rows⟩ false ∧
      rows.length = F.rows ∧
      ∀ (i : Nat) r v0 v1 v2, F.data[i]? = some r → readTriangle V r = some (v0, v1, v2) →
        rows[i]? = some (triangleRow sqrt (l sqrt v0 v1 v2)) := by
  obtain ⟨rows, hl, hf⟩ := triangleLoop_of_valid sqrt V F hc hv
  refine ⟨rows, cotangent_of_triangleLoop sqrt V F C0 hc rows hl, hf.length_eq.symm, ?_⟩
  intro i r v0 v1 v2 hi hr
  obtain ⟨row, hrow, hR⟩ := forall₂_getElem? hf i r hi
  rw [triangleElement_of_read sqrt V r v0 v1 v2 hr, Option.some.injEq] at hR
  rw [hrow, hR]

/-- What a valid tetrahedron batch returns: one flag for the batch, true exactly
when `diagPos` holds for every element; the rows are the `tetRow`s of the
elements, all negated when the flag is true and none otherwise. -/
theorem cotangent_tet_rows (sqrt : α → α) (V : List (Vec3 α)) (F : MatF) (C0 : MatC α)
    (hc : F.cols = 4) (hv : F.Valid V) :
    ∃ (flag : Bool) (rows : List (List α)),
      cotangent sqrt V F C0 =
        .returned ⟨F.rows, 6, if flag then negate rows else rows⟩ flag ∧
      rows.length = F.rows ∧
      (∀ (j : Nat) r pa pb pc pd, F.data[j]? = some r → readTet V r = some (pa, pb, pc, pd) →
        rows[j]? = some (tetRow pa pb pc pd)) ∧
      (flag = true ↔ ∀ r ∈ F.data, ∀ pa pb pc pd, readTet V r = some (pa, pb, pc, pd) →
        diagPos pa pb pc pd = true) := by
  obtain ⟨prs, hf, hl⟩ := tetLoop_of_valid V F hc hv
  refine ⟨prs.all (fun pr => pr.1), prs.map (fun pr => pr.2),
    cotangent_of_tetLoop sqrt V F C0 hc _ _ hl, ?_, ?_, ?_⟩
  · simpa using hf.length_eq.symm
  · intro j r pa pb pc pd hj hr
    obtain ⟨pr, hpr, hR⟩ := forall₂_getElem? hf j r hj
    rw [tetElement_of_read V r pa pb pc pd hr, Option.some.injEq] at hR
    rw [List.getElem?_map, hpr, ← hR]
    rfl
  · rw [List.all_eq_true]
    constructor
    · intro hall r hr pa pb pc pd hread
      obtain ⟨j, hj, rfl⟩ := List.getElem_of_mem hr
      obtain ⟨pr, hpr, hR⟩ := forall₂_getElem? hf j F.data[j] (List.getElem?_eq_getElem hj)
      rw [tetElement_of_read V _ pa pb pc pd hread, Option.some.injEq] at hR
      have := hall pr (List.getElem?_mem hpr)
      rw [← hR] at this
      exact this
    · intro hall pr hpr
      obtain ⟨j, hj, rfl⟩ := List.getElem_of_mem hpr
      have hj2 : j < F.data.length := by rw [hf.length_eq]; exact hj
      obtain ⟨pr2, hpr2, hR⟩ := forall₂_getElem? hf j F.data[j] (List.getElem?_eq_getElem hj2)
      rw [List.getElem?_eq_getElem hj, Option.some.injEq] at hpr2
      subst hpr2
      obtain ⟨hlen, hidx⟩ := hv F.data[j] (List.getElem_mem hj2)
      obtain ⟨pa, pb, pc, pd, hread⟩ := readTet_isSome_of_valid V _ (hlen.trans hc) hidx
      rw [tetElement_of_read V _ pa pb pc pd hread, Option.some.injEq] at hR
      rw [← hR]
      exact hall _ (List.getElem_mem hj2) pa pb pc pd hread

end batch

/-! ## Heron's formula over the reals -/

section heron

theorem pow2sum_nonneg {α : Type} [LinearOrderedField α] (p : Vec3 α) : 0 ≤ p.pow2sum := by
  unfold Vec3.pow2sum
  positivity

/-- Heron's radicand of the edge lengths is a quarter of the squared norm of the
cross product of two edge vectors. -/
theorem heron_radicand (v0 v1 v2 : Vec3 ℝ) :
    s (l Real.sqrt v0 v1 v2) * (s (l Real.sqrt v0 v1 v2) - (l Real.sqrt v0 v1 v2).1) *
      (s (l Real.sqrt v0 v1 v2) - (l Real.sqrt v0 v1 v2).2.1) *
      (s (l Real.sqrt v0 v1 v2) - (l Real.sqrt v0 v1 v2).2.2) =
    ((v1.sub v0).cross (v2.sub v0)).pow2sum / 4 := by
  have h0 : Real.sqrt (v1.sub v2).pow2sum ^ 2 = (v1.sub v2).pow2sum :=
    Real.sq_sqrt (pow2sum_nonneg _)
  have h1 : Real.sqrt (v2.sub v0).pow2sum ^ 2 = (v2.sub v0).pow2sum :=
    Real.sq_sqrt (pow2sum_nonneg _)
  have h2 : Real.sqrt (v0.sub v1).pow2sum ^ 2 = (v0.sub v1).pow2sum :=
    Real.sq_sqrt (pow2sum_nonneg _)
  simp only [s, l]
  generalize Real.sqrt (v1.sub v2).pow2sum = l0 at h0
  generalize Real.sqrt (v2.sub v0).pow2sum = l1 at h1
  generalize Real.sqrt (v0.sub v1).pow2sum = l2 at h2
  have key : (l0 + l1 + l2) * (1 / 2) * ((l0 + l1 + l2) * (1 / 2) - l0) *
      ((l0 + l1 + l2) * (1 / 2) - l1) * ((l0 + l1 + l2) * (1 / 2) - l2) =
      (2 * (l0 ^ 2 * l1 ^ 2 + l1 ^ 2 * l2 ^ 2 + l2 ^ 2 * l0 ^ 2)
        - (l0 ^ 2) ^ 2 - (l1 ^ 2) ^ 2 - (l2 ^ 2) ^ 2) / 16 := by ring
  rw [key, h0, h1, h2]
  simp only [Vec3.pow2sum, Vec3.sub, Vec3.cross]
  ring

/-- Heron's doubled area is the norm of the cross product of two edge vectors. -/
theorem dblA_eq_cross_norm (v0 v1 v2 : Vec3 ℝ) :
    dblA Real.sqrt (l Real.sqrt v0 v1 v2) =
      Real.sqrt ((v1.sub v0).cross (v2.sub v0)).pow2sum := by
  unfold dblA
  rw [heron_radicand]
  have hX : 0 ≤ Real.sqrt ((v1.sub v0).cross (v2.sub v0)).pow2sum / 2 := by positivity
  have : ((v1.sub v0).cross (v2.sub v0)).pow2sum / 4 =
      (Real.sqrt ((v1.sub v0).cross (v2.sub v0)).pow2sum / 2) ^ 2 := by
    rw [div_pow, Real.sq_sqrt (pow2sum_nonneg _)]
    norm_num
  rw [this, Real.sqrt_sq hX]
  ring

end heron

/-! ## Triangle weights are half cotangents -/

section triangleWeights

/-- The three entries of a triangle's row are the half cotangents at its three
vertices. -/
theorem triangleRow_eq_halfCotangent (v0 v1 v2 : Vec3 ℝ) :
    triangleRow Real.sqrt (l Real.sqrt v0 v1 v2) =
      [halfCotangentAt Real.sqrt v0 v1 v2, halfCotangentAt Real.sqrt v1 v2 v0,
        halfCotangentAt Real.sqrt v2 v0 v1] := by
  have h0 : Real.sqrt (v1.sub v2).pow2sum * Real.sqrt (v1.sub v2).pow2sum = (v1.sub v2).pow2sum :=
    Real.mul_self_sqrt (pow2sum_nonneg _)
  have h1 : Real.sqrt (v2.sub v0).pow2sum * Real.sqrt (v2.sub v0).pow2sum = (v2.sub v0).pow2sum :=
    Real.mul_self_sqrt (pow2sum_nonneg _)
  have h2 : Real.sqrt (v0.sub v1).pow2sum * Real.sqrt (v0.sub v1).pow2sum = (v0.sub v1).pow2sum :=
    Real.mul_self_sqrt (pow2sum_nonneg _)
  have hA := dblA_eq_cross_norm v0 v1 v2
  have hX1 : ((v2.sub v1).cross (v0.sub v1)).pow2sum = ((v1.sub v0).cross (v2.sub v0)).pow2sum := by
    simp only [Vec3.pow2sum, Vec3.sub, Vec3.cross]; ring
  have hX2 : ((v0.sub v2).cross (v1.sub v2)).pow2sum = ((v1.sub v0).cross (v2.sub v0)).pow2sum := by
    simp only [Vec3.pow2sum, Vec3.sub, Vec3.cross]; ring
  unfold triangleRow halfCotangentAt
  rw [hX1, hX2, hA]
  simp only [l]
  rw [h0, h1, h2]
  simp only [Vec3.pow2sum, Vec3.sub, Vec3.dot]
  congr 1
  · ring
  congr 1
  · ring
  congr 1
  ring

/-- C3: over the reals, for every valid triangle batch the call returns, and for
every element (v0,v1,v2) whose vertices are not collinear the entry in column k
is the dot product of the two edge vectors leaving vertex k over twice the norm
of their cross product (the cotangent of the angle at vertex k with the factor
1/2 folded in); equivalently it is (l1² + l2² - l0²) / (4 dblA) and cyclically,
with l_k the length of the edge opposite vertex k and dblA twice Heron's area. -/
theorem C3_triangle_half_cotangents (V : List (Vec3 ℝ)) (F : MatF) (C0 : MatC ℝ)
    (hc : F.cols = 3) (hv : F.Valid V) :
    ∃ C flipped, cotangent Real.sqrt V F C0 = .returned C flipped ∧
      ∀ (i : Nat) r v0 v1 v2, F.data[i]? = some r → readTriangle V r = some (v0, v1, v2) →
        (v1.sub v0).cross (v2.sub v0) ≠ ⟨0, 0, 0⟩ →
        C.data[i]? = some [halfCotangentAt Real.sqrt v0 v1 v2,
          halfCotangentAt Real.sqrt v1 v2 v0, halfCotangentAt Real.sqrt v2 v0 v1] ∧
        ∀ l0 l1 l2 sp A2 : ℝ, l0 = Real.sqrt (v1.sub v2).pow2sum →
          l1 = Real.sqrt (v2.sub v0).pow2sum → l2 = Real.sqrt (v0.sub v1).pow2sum →
          sp = (l0 + l1 + l2) / 2 →
          A2 = 2 * Real.sqrt (sp * (sp - l0) * (sp - l1) * (sp - l2)) →
          C.data[i]? = some [(l1 ^ 2 + l2 ^ 2 - l0 ^ 2) / (4 * A2),
            (l2 ^ 2 + l0 ^ 2 - l1 ^ 2) / (4 * A2), (l0 ^ 2 + l1 ^ 2 - l2 ^ 2) / (4 * A2)] := by
  obtain ⟨rows, hret, -, hrows⟩ := cotangent_triangle_rows Real.sqrt V F C0 hc hv
  refine ⟨_, _, hret, ?_⟩
  intro i r v0 v1 v2 hi hr _
  have hrow := hrows i r v0 v1 v2 hi hr
  constructor
  · rw [← triangleRow_eq_halfCotangent]
    exact hrow
  · intro l0 l1 l2 sp A2 e0 e1 e2 es eA
    show rows[i]? = _
    rw [hrow]
    have hs : s (l Real.sqrt v0 v1 v2) = sp := by
      rw [es, e0, e1, e2]; simp only [s, l]; ring
    have hd : dblA Real.sqrt (l Real.sqrt v0 v1 v2) = A2 := by
      unfold dblA
      rw [hs, eA, e0, e1, e2]
      simp only [l]
    unfold triangleRow
    rw [hd]
    simp only [l, ← e0, ← e1, ← e2]
    congr 2
    · ring
    congr 1
    · ring
    congr 1
    ring

/-- The right triangle (0,0,0), (1,0,0), (0,1,0): the row is the three half
cotangents. -/
theorem C3_triangle_half_cotangents_witness :
    (⟨3, [[0, 1, 2]]⟩ : MatF).cols = 3 ∧
    (⟨3, [[0, 1, 2]]⟩ : MatF).Valid ([⟨0, 0, 0⟩, ⟨1, 0, 0⟩, ⟨0, 1, 0⟩] : List (Vec3 ℝ)) ∧
    ∃ C flipped, cotangent Real.sqrt [⟨0, 0, 0⟩, ⟨1, 0, 0⟩, ⟨0, 1, 0⟩] ⟨3, [[0, 1, 2]]⟩
        ⟨0, 0, []⟩ = .returned C flipped ∧
      C.data[0]? = some [halfCotangentAt Real.sqrt ⟨0, 0, 0⟩ ⟨1, 0, 0⟩ ⟨0, 1, 0⟩,
        halfCotangentAt Real.sqrt ⟨1, 0, 0⟩ ⟨0, 1, 0⟩ ⟨0, 0, 0⟩,
        halfCotangentAt Real.sqrt ⟨0, 1, 0⟩ ⟨0, 0, 0⟩ ⟨1, 0, 0⟩] := by
  refine ⟨rfl, by simp [MatF.Valid], ?_⟩
  obtain ⟨C, flipped, hret, hrow⟩ :=
    C3_triangle_half_cotangents [⟨0, 0, 0⟩, ⟨1, 0, 0⟩, ⟨0, 1, 0⟩] ⟨3, [[0, 1, 2]]⟩ ⟨0, 0, []⟩
      rfl (by simp [MatF.Valid])
  exact ⟨C, flipped, hret,
    (hrow 0 [0, 1, 2] ⟨0, 0, 0⟩ ⟨1, 0, 0⟩ ⟨0, 1, 0⟩ rfl rfl
      (by simp [Vec3.cross, Vec3.sub])).1⟩

end triangleWeights

/-! ## Tetrahedron rows: column order and the batch sign -/

section tetRows

variable {α : Type} [LinearOrderedField α]

theorem negate_getElem? (rows : List (List α)) (j : Nat) (row : List α)
    (h : rows[j]? = some row) : (negate rows)[j]? = some (row.map (fun c => c * (-1))) := by
  simp [negate, List.getElem?_map, h]

theorem diagPos_iff (pa pb pc pd : Vec3 α) :
    diagPos pa pb pc pd = true ↔
      0 < Kj pa pb pc pd 0 0 ∧ 0 < Kj pa pb pc pd 1 1 ∧ 0 < Kj pa pb pc pd 2 2 ∧
        0 < Kj pa pb pc pd 3 3 := by
  simp [diagPos, and_assoc]

/-- C4: for every valid batch of tetrahedra the call returns and there is one
sign σ ∈ {+1, -1}, the same for every row, such that row j is
σ · (K(1,2), K(2,0), K(0,1), K(3,0), K(3,1), K(3,2)) with K = volume · EᵀE the
Gram matrix of element j (vertices a,b,c,d indexed 0,1,2,3): the columns hold
the weights of the edges (b,c), (c,a), (a,b), (d,a), (d,b), (d,c) in that order. -/
theorem C4_tet_column_order (sqrt : α → α) (V : List (Vec3 α)) (F : MatF) (C0 : MatC α)
    (hc : F.cols = 4) (hv : F.Valid V) :
    ∃ (σ : α) (C : MatC α) (flipped : Bool), (σ = 1 ∨ σ = -1) ∧
      cotangent sqrt V F C0 = .returned C flipped ∧
      ∀ (j : Nat) r pa pb pc pd, F.data[j]? = some r → readTet V r = some (pa, pb, pc, pd) →
        ∀ K : Fin 4 → Fin 4 → α,
          (∀ i k, K i k = volume pa pb pc pd * (Ej pa pb pc pd i).dot (Ej pa pb pc pd k)) →
          C.data[j]? = some [σ * K 1 2, σ * K 2 0, σ * K 0 1, σ * K 3 0, σ * K 3 1, σ * K 3 2] := by
  obtain ⟨flag, rows, hret, -, hrows, -⟩ := cotangent_tet_rows sqrt V F C0 hc hv
  have hK : ∀ (pa pb pc pd : Vec3 α) (K : Fin 4 → Fin 4 → α),
      (∀ i k, K i k = volume pa pb pc pd * (Ej pa pb pc pd i).dot (Ej pa pb pc pd k)) →
      ∀ i k, Kj pa pb pc pd i k = K i k := by
    intro pa pb pc pd K h i k
    rw [h, Kj, EjTEj, mul_comm]
  cases flag with
  | false =>
    refine ⟨1, _, _, Or.inl rfl, hret, ?_⟩
    intro j r pa pb pc pd hj hr K hKdef
    have := hrows j r pa pb pc pd hj hr
    simp only [Bool.false_eq_true, if_false, one_mul]
    rw [this, tetRow]
    simp only [hK pa pb pc pd K hKdef]
  | true =>
    refine ⟨-1, _, _, Or.inr rfl, hret, ?_⟩
    intro j r pa pb pc pd hj hr K hKdef
    have := negate_getElem? rows j _ (hrows j r pa pb pc pd hj hr)
    simp only [if_true]
    rw [this, tetRow]
    simp only [hK pa pb pc pd K hKdef, List.map_cons, List.map_nil, mul_neg, mul_one, neg_mul,
      one_mul]

/-- A batch of two tetrahedra of opposite orientation. -/
theorem C4_tet_column_order_witness :
    (⟨4, [[0, 1, 2, 3], [1, 0, 2, 3]]⟩ : MatF).cols = 4 ∧
    (⟨4, [[0, 1, 2, 3], [1, 0, 2, 3]]⟩ : MatF).Valid
      ([⟨0, 0, 0⟩, ⟨1, 0, 0⟩, ⟨0, 1, 0⟩, ⟨0, 0, 1⟩] : List (Vec3 ℚ)) ∧
    ∃ (σ : ℚ) (C : MatC ℚ) (flipped : Bool), (σ = 1 ∨ σ = -1) ∧
      cotangent (fun x : ℚ => x) [⟨0, 0, 0⟩, ⟨1, 0, 0⟩, ⟨0, 1, 0⟩, ⟨0, 0, 1⟩]
        ⟨4, [[0, 1, 2, 3], [1, 0, 2, 3]]⟩ ⟨0, 0, []⟩ = .returned C flipped ∧
      ∀ (j : Nat) r pa pb pc pd,
        (⟨4, [[0, 1, 2, 3], [1, 0, 2, 3]]⟩ : MatF).data[j]? = some r →
        readTet ([⟨0, 0, 0⟩, ⟨1, 0, 0⟩, ⟨0, 1, 0⟩, ⟨0, 0, 1⟩] : List (Vec3 ℚ)) r
          = some (pa, pb, pc, pd) →
        ∀ K : Fin 4 → Fin 4 → ℚ,
          (∀ i k, K i k = volume pa pb pc pd * (Ej pa pb pc pd i).dot (Ej pa pb pc pd k)) →
          C.data[j]? = some [σ * K 1 2, σ * K 2 0, σ * K 0 1, σ * K 3 0, σ * K 3 1, σ * K 3 2] :=
  ⟨rfl, by simp [MatF.Valid],
    C4_tet_column_order (fun x : ℚ => x) [⟨0, 0, 0⟩, ⟨1, 0, 0⟩, ⟨0, 1, 0⟩, ⟨0, 0, 1⟩]
      ⟨4, [[0, 1, 2, 3], [1, 0, 2, 3]]⟩ ⟨0, 0, []⟩ rfl (by simp [MatF.Valid])⟩

/-- C5: the sign flip is one decision for the whole batch. For every valid batch
of tetrahedra the call returns; if the four diagonal Gram entries of every
element are strictly positive, every entry of every row is the negation of the
computed off-diagonal Gram entry; if some element has a diagonal entry that is
not strictly positive, every entry of every row is left as computed; so either
all rows are negated or none is. -/
theorem C5_flip_all_or_nothing (sqrt : α → α) (V : List (Vec3 α)) (F : MatF) (C0 : MatC α)
    (hc : F.cols = 4) (hv : F.Valid V) :
    ∃ C flipped, cotangent sqrt V F C0 = .returned C flipped ∧
      ((∀ r ∈ F.data, ∀ pa pb pc pd, readTet V r = some (pa, pb, pc, pd) →
          0 < Kj pa pb pc pd 0 0 ∧ 0 < Kj pa pb pc pd 1 1 ∧ 0 < Kj pa pb pc pd 2 2 ∧
            0 < Kj pa pb pc pd 3 3) →
        flipped = true ∧
        ∀ (j : Nat) r pa pb pc pd, F.data[j]? = some r → readTet V r = some (pa, pb, pc, pd) →
          C.data[j]? = some [-Kj pa pb pc pd 1 2, -Kj pa pb pc pd 2 0, -Kj pa pb pc pd 0 1,
            -Kj pa pb pc pd 3 0, -Kj pa pb pc pd 3 1, -Kj pa pb pc pd 3 2]) ∧
      ((∃ r ∈ F.data, ∃ pa pb pc pd, readTet V r = some (pa, pb, pc, pd) ∧
          ¬ (0 < Kj pa pb pc pd 0 0 ∧ 0 < Kj pa pb pc pd 1 1 ∧ 0 < Kj pa pb pc pd 2 2 ∧
            0 < Kj pa pb pc pd 3 3)) →
        flipped = false ∧
        ∀ (j : Nat) r pa pb pc pd, F.data[j]? = some r → readTet V r = some (pa, pb, pc, pd) →
          C.data[j]? = some [Kj pa pb pc pd 1 2, Kj pa pb pc pd 2 0, Kj pa pb pc pd 0 1,
            Kj pa pb pc pd 3 0, Kj pa pb pc pd 3 1, Kj pa pb pc pd 3 2]) ∧
      ((∀ (j : Nat) r pa pb pc pd, F.data[j]? = some r → readTet V r = some (pa, pb, pc, pd) →
          C.data[j]? = some [-Kj pa pb pc pd 1 2, -Kj pa pb pc pd 2 0, -Kj pa pb pc pd 0 1,
            -Kj pa pb pc pd 3 0, -Kj pa pb pc pd 3 1, -Kj pa pb pc pd 3 2]) ∨
        (∀ (j : Nat) r pa pb pc pd, F.data[j]? = some r → readTet V r = some (pa, pb, pc, pd) →
          C.data[j]? = some [Kj pa pb pc pd 1 2, Kj pa pb pc pd 2 0, Kj pa pb pc pd 0 1,
            Kj pa pb pc pd 3 0, Kj pa pb pc pd 3 1, Kj pa pb pc pd 3 2])) := by
  obtain ⟨flag, rows, hret, -, hrows, hflag⟩ := cotangent_tet_rows sqrt V F C0 hc hv
  have hneg : flag = true → ∀ (j : Nat) r pa pb pc pd, F.data[j]? = some r →
      readTet V r = some (pa, pb, pc, pd) →
      (if flag then negate rows else rows)[j]? =
        some [-Kj pa pb pc pd 1 2, -Kj pa pb pc pd 2 0, -Kj pa pb pc pd 0 1,
          -Kj pa pb pc pd 3 0, -Kj pa pb pc pd 3 1, -Kj pa pb pc pd 3 2] := by
    intro hf j r pa pb pc pd hj hr
    rw [hf, if_pos rfl, negate_getElem? rows j _ (hrows j r pa pb pc pd hj hr), tetRow]
    simp
  have hpos : flag = false → ∀ (j : Nat) r pa pb pc pd, F.data[j]? = some r →
      readTet V r = some (pa, pb, pc, pd) →
      (if flag then negate rows else rows)[j]? =
        some [Kj pa pb pc pd 1 2, Kj pa pb pc pd 2 0, Kj pa pb pc pd 0 1,
          Kj pa pb pc pd 3 0, Kj pa pb pc pd 3 1, Kj pa pb pc pd 3 2] := by
    intro hf j r pa pb pc pd hj hr
    rw [hf]
    simp only [Bool.false_eq_true, if_false]
    rw [hrows j r pa pb pc pd hj hr, tetRow]
  refine ⟨_, _, hret, ?_, ?_, ?_⟩
  · intro hall
    have hf : flag = true :=
      hflag.2 (fun r hr pa pb pc pd hread => (diagPos_iff pa pb pc pd).2 (hall r hr pa pb pc pd hread))
    exact ⟨hf, hneg hf⟩
  · rintro ⟨r, hr, pa, pb, pc, pd, hread, hnot⟩
    have hf : flag = false := by
      cases hfl : flag with
      | false => rfl
      | true =>
        exact absurd ((diagPos_iff pa pb pc pd).1 (hflag.1 hfl r hr pa pb pc pd hread)) hnot
    exact ⟨hf, hpos hf⟩
  · cases hfl : flag with
    | false => exact Or.inr (hfl ▸ hpos hfl)
    | true => exact Or.inl (hfl ▸ hneg hfl)

end tetRows

section tetRowsWitness

/-- A well-shaped tetrahedron next to a flat one (vertices 0, 1, 5 collinear):
the flip is suppressed and the first row is left as computed. -/
theorem C5_flip_all_or_nothing_witness :
    (⟨4, [[1, 0, 2, 3], [0, 1, 5, 2]]⟩ : MatF).cols = 4 ∧
    (⟨4, [[1, 0, 2, 3], [0, 1, 5, 2]]⟩ : MatF).Valid
      ([⟨0, 0, 0⟩, ⟨1, 0, 0⟩, ⟨0, 1, 0⟩, ⟨0, 0, 1⟩, ⟨1, 1, 1⟩, ⟨2, 0, 0⟩] : List (Vec3 ℚ)) ∧
    ∃ C flipped,
      cotangent (fun x : ℚ => x)
        [⟨0, 0, 0⟩, ⟨1, 0, 0⟩, ⟨0, 1, 0⟩, ⟨0, 0, 1⟩, ⟨1, 1, 1⟩, ⟨2, 0, 0⟩]
        ⟨4, [[1, 0, 2, 3], [0, 1, 5, 2]]⟩ ⟨0, 0, []⟩ = .returned C flipped ∧
      flipped = false ∧
      C.data[0]? = some [Kj (⟨1, 0, 0⟩ : Vec3 ℚ) ⟨0, 0, 0⟩ ⟨0, 1, 0⟩ ⟨0, 0, 1⟩ 1 2,
        Kj (⟨1, 0, 0⟩ : Vec3 ℚ) ⟨0, 0, 0⟩ ⟨0, 1, 0⟩ ⟨0, 0, 1⟩ 2 0,
        Kj (⟨1, 0, 0⟩ : Vec3 ℚ) ⟨0, 0, 0⟩ ⟨0, 1, 0⟩ ⟨0, 0, 1⟩ 0 1,
        Kj (⟨1, 0, 0⟩ : Vec3 ℚ) ⟨0, 0, 0⟩ ⟨0, 1, 0⟩ ⟨0, 0, 1⟩ 3 0,
        Kj (⟨1, 0, 0⟩ : Vec3 ℚ) ⟨0, 0, 0⟩ ⟨0, 1, 0⟩ ⟨0, 0, 1⟩ 3 1,
        Kj (⟨1, 0, 0⟩ : Vec3 ℚ) ⟨0, 0, 0⟩ ⟨0, 1, 0⟩ ⟨0, 0, 1⟩ 3 2] := by
  refine ⟨rfl, by simp [MatF.Valid], ?_⟩
  obtain ⟨C, flipped, hret, -, hsome, -⟩ :=
    C5_flip_all_or_nothing (fun x : ℚ => x)
      [⟨0, 0, 0⟩, ⟨1, 0, 0⟩, ⟨0, 1, 0⟩, ⟨0, 0, 1⟩, ⟨1, 1, 1⟩, ⟨2, 0, 0⟩]
      ⟨4, [[1, 0, 2, 3], [0, 1, 5, 2]]⟩ ⟨0, 0, []⟩ rfl (by simp [MatF.Valid])
  obtain ⟨hf, hrows⟩ := hsome ⟨[0, 1, 5, 2], by simp, ⟨0, 0, 0⟩, ⟨1, 0, 0⟩, ⟨2, 0, 0⟩, ⟨0, 1, 0⟩,
    rfl, by norm_num [Kj, volume, JTj, Mat3.determinant, Vec3.sub]⟩
  exact ⟨C, flipped, hret, hf, hrows 0 [1, 0, 2, 3] _ _ _ _ rfl rfl⟩

end tetRowsWitness

/-! ## The diagonal of the Gram matrix -/

section diagonal

variable {α : Type} [LinearOrderedField α]

theorem Vec3.dot_self_nonneg (p : Vec3 α) : 0 ≤ p.dot p := by
  unfold Vec3.dot
  nlinarith [mul_self_nonneg p.x, mul_self_nonneg p.y, mul_self_nonneg p.z]

theorem Vec3.eq_zero_of_dot_self (p : Vec3 α) (h : p.dot p = 0) : p = ⟨0, 0, 0⟩ := by
  obtain ⟨x, y, z⟩ := p
  simp only [Vec3.dot] at h
  have hx : x = 0 := by nlinarith [mul_self_nonneg x, mul_self_nonneg y, mul_self_nonneg z]
  have hy : y = 0 := by nlinarith [mul_self_nonneg x, mul_self_nonneg y, mul_self_nonneg z]
  have hz : z = 0 := by nlinarith [mul_self_nonneg x, mul_self_nonneg y, mul_self_nonneg z]
  rw [hx, hy, hz]

/-- The cofactor inverse is a right inverse when the determinant is not zero. -/
theorem Mat3.mulVec_inverse_mulVec (A : Mat3 α) (h : A.determinant ≠ 0) (v : Vec3 α) :
    A.mulVec (A.inverse.mulVec v) = v := by
  obtain ⟨⟨a, b, c⟩, ⟨d, e, f⟩, ⟨g, k, m⟩⟩ := A
  obtain ⟨x, y, z⟩ := v
  simp only [Mat3.determinant] at h
  simp only [Mat3.mulVec, Mat3.inverse, Mat3.determinant, Vec3.dot, Vec3.mk.injEq]
  refine ⟨?_, ?_, ?_⟩ <;> field_simp <;> ring

theorem rhs_ne_zero (i : Fin 4) : (rhs i : Vec3 α) ≠ ⟨0, 0, 0⟩ := by
  fin_cases i <;> simp [rhs]

/-- Every column of `Ej` is a non-zero vector when the determinant is not zero. -/
theorem Ej_dot_self_pos (pa pb pc pd : Vec3 α) (h : (JTj pa pb pc pd).determinant ≠ 0)
    (i : Fin 4) : 0 < (Ej pa pb pc pd i).dot (Ej pa pb pc pd i) := by
  rcases (Vec3.dot_self_nonneg (Ej pa pb pc pd i)).lt_or_eq with hlt | heq
  · exact hlt
  · exfalso
    have hz := Vec3.eq_zero_of_dot_self _ heq.symm
    have hm := Mat3.mulVec_inverse_mulVec (JTj pa pb pc pd) h (rhs i)
    unfold Ej at hz
    rw [hz] at hm
    apply rhs_ne_zero (α := α) i
    rw [← hm]
    simp [Mat3.mulVec, Vec3.dot]

/-- The diagonal of `Kj` is strictly positive whenever the determinant is not
zero, whatever its sign. -/
theorem Kj_diag_pos (pa pb pc pd : Vec3 α) (h : (JTj pa pb pc pd).determinant ≠ 0)
    (i : Fin 4) : 0 < Kj pa pb pc pd i i := by
  unfold Kj EjTEj volume
  have h1 := Ej_dot_self_pos pa pb pc pd h i
  have h2 : 0 < |(JTj pa pb pc pd).determinant| := abs_pos.2 h
  positivity

theorem diagPos_of_det_ne_zero (pa pb pc pd : Vec3 α)
    (h : (JTj pa pb pc pd).determinant ≠ 0) : diagPos pa pb pc pd = true :=
  (diagPos_iff pa pb pc pd).2
    ⟨Kj_diag_pos pa pb pc pd h 0, Kj_diag_pos pa pb pc pd h 1, Kj_diag_pos pa pb pc pd h 2,
      Kj_diag_pos pa pb pc pd h 3⟩

/-- The diagonal of `Kj` is zero for a zero-volume element. -/
theorem diagPos_of_det_eq_zero (pa pb pc pd : Vec3 α)
    (h : (JTj pa pb pc pd).determinant = 0) : diagPos pa pb pc pd = false := by
  cases hd : diagPos pa pb pc pd with
  | false => rfl
  | true =>
    have := ((diagPos_iff pa pb pc pd).1 hd).1
    simp [Kj, volume, h] at this

end diagonal

/-! ## An inverted element and the flip -/

section inverted

variable {α : Type} [LinearOrderedField α]

/-- C6 fails: in the batch of the tetrahedron (1,0,0), (0,0,0), (0,1,0), (0,0,1)
(determinant 1) and the same tetrahedron with its first two vertices swapped
(determinant -1) the flip is applied: both rows of the output are the negated
rows of off-diagonal Gram entries. -/
theorem C6_counterexample :
    (JTj (⟨1, 0, 0⟩ : Vec3 ℚ) ⟨0, 0, 0⟩ ⟨0, 1, 0⟩ ⟨0, 0, 1⟩).determinant = 1 ∧
    (JTj (⟨0, 0, 0⟩ : Vec3 ℚ) ⟨1, 0, 0⟩ ⟨0, 1, 0⟩ ⟨0, 0, 1⟩).determinant = -1 ∧
    tetRow (⟨1, 0, 0⟩ : Vec3 ℚ) ⟨0, 0, 0⟩ ⟨0, 1, 0⟩ ⟨0, 0, 1⟩ = [-1/6, 0, -1/6, 0, -1/6, 0] ∧
    tetRow (⟨0, 0, 0⟩ : Vec3 ℚ) ⟨1, 0, 0⟩ ⟨0, 1, 0⟩ ⟨0, 0, 1⟩ = [0, -1/6, -1/6, -1/6, 0, 0] ∧
    cotangent (fun x : ℚ => x) [⟨0, 0, 0⟩, ⟨1, 0, 0⟩, ⟨0, 1, 0⟩, ⟨0, 0, 1⟩]
        ⟨4, [[1, 0, 2, 3], [0, 1, 2, 3]]⟩ ⟨0, 0, []⟩ =
      .returned ⟨2, 6, [[1/6, 0, 1/6, 0, 1/6, 0], [0, 1/6, 1/6, 1/6, 0, 0]]⟩ true := by
  refine ⟨?_, ?_, ?_, ?_, ?_⟩
  · norm_num [JTj, Mat3.determinant, Vec3.sub]
  · norm_num [JTj, Mat3.determinant, Vec3.sub]
  · norm_num [tetRow, Kj, EjTEj, Ej, volume, rhs, JTj, Mat3.determinant, Mat3.inverse,
      Mat3.mulVec, Vec3.sub, Vec3.dot]
  · norm_num [tetRow, Kj, EjTEj, Ej, volume, rhs, JTj, Mat3.determinant, Mat3.inverse,
      Mat3.mulVec, Vec3.sub, Vec3.dot]
  · norm_num [cotangent, MatF.rows, tetLoop, tetElement, readTet, negate, diagPos, tetRow, Kj,
      EjTEj, Ej, volume, rhs, JTj, Mat3.determinant, Mat3.inverse, Mat3.mulVec, Vec3.sub,
      Vec3.dot]

/-- C6 as amended: an inverted element does not suppress the flip. For every
valid batch of tetrahedra in which one element has a negative determinant and
every other element a positive one, the flip is applied: every row of the
output is the negated row of off-diagonal Gram entries. -/
theorem C6_inverted_element_still_flipped (sqrt : α → α) (V : List (Vec3 α)) (F : MatF)
    (C0 : MatC α) (hc : F.cols = 4) (hv : F.Valid V) (j0 : Nat) (hj0 : j0 < F.rows)
    (hinv : ∀ r pa pb pc pd, F.data[j0]? = some r → readTet V r = some (pa, pb, pc, pd) →
      (JTj pa pb pc pd).determinant < 0)
    (hgood : ∀ (j : Nat), j ≠ j0 → ∀ r pa pb pc pd, F.data[j]? = some r →
      readTet V r = some (pa, pb, pc, pd) → 0 < (JTj pa pb pc pd).determinant) :
    ∃ C, cotangent sqrt V F C0 = .returned C true ∧
      ∀ (j : Nat) r pa pb pc pd, F.data[j]? = some r → readTet V r = some (pa, pb, pc, pd) →
        C.data[j]? = some [-Kj pa pb pc pd 1 2, -Kj pa pb pc pd 2 0, -Kj pa pb pc pd 0 1,
          -Kj pa pb pc pd 3 0, -Kj pa pb pc pd 3 1, -Kj pa pb pc pd 3 2] := by
  obtain ⟨flag, rows, hret, -, hrows, hflag⟩ := cotangent_tet_rows sqrt V F C0 hc hv
  have hf : flag = true := by
    apply hflag.2
    intro r hr pa pb pc pd hread
    obtain ⟨j, hj, rfl⟩ := List.getElem_of_mem hr
    apply diagPos_of_det_ne_zero
    by_cases hjj : j = j0
    · subst hjj
      exact (hinv _ pa pb pc pd (List.getElem?_eq_getElem hj) hread).ne
    · exact (hgood j hjj _ pa pb pc pd (List.getElem?_eq_getElem hj) hread).ne'
  subst hf
  refine ⟨_, hret, ?_⟩
  intro j r pa pb pc pd hj hr
  simp only [if_true]
  rw [negate_getElem? rows j _ (hrows j r pa pb pc pd hj hr), tetRow]
  simp

end inverted

section invertedWitness

/-- The batch of a tetrahedron and its mirror image: the flip is applied. -/
theorem C6_inverted_element_still_flipped_witness :
    (⟨4, [[1, 0, 2, 3], [0, 1, 2, 3]]⟩ : MatF).cols = 4 ∧
    (⟨4, [[1, 0, 2, 3], [0, 1, 2, 3]]⟩ : MatF).Valid
      ([⟨0, 0, 0⟩, ⟨1, 0, 0⟩, ⟨0, 1, 0⟩, ⟨0, 0, 1⟩] : List (Vec3 ℚ)) ∧
    (JTj (⟨0, 0, 0⟩ : Vec3 ℚ) ⟨1, 0, 0⟩ ⟨0, 1, 0⟩ ⟨0, 0, 1⟩).determinant < 0 ∧
    0 < (JTj (⟨1, 0, 0⟩ : Vec3 ℚ) ⟨0, 0, 0⟩ ⟨0, 1, 0⟩ ⟨0, 0, 1⟩).determinant ∧
    ∃ C, cotangent (fun x : ℚ => x) [⟨0, 0, 0⟩, ⟨1, 0, 0⟩, ⟨0, 1, 0⟩, ⟨0, 0, 1⟩]
        ⟨4, [[1, 0, 2, 3], [0, 1, 2, 3]]⟩ ⟨0, 0, []⟩ = .returned C true ∧
      C.data[1]? = some [-Kj (⟨0, 0, 0⟩ : Vec3 ℚ) ⟨1, 0, 0⟩ ⟨0, 1, 0⟩ ⟨0, 0, 1⟩ 1 2,
        -Kj (⟨0, 0, 0⟩ : Vec3 ℚ) ⟨1, 0, 0⟩ ⟨0, 1, 0⟩ ⟨0, 0, 1⟩ 2 0,
        -Kj (⟨0, 0, 0⟩ : Vec3 ℚ) ⟨1, 0, 0⟩ ⟨0, 1, 0⟩ ⟨0, 0, 1⟩ 0 1,
        -Kj (⟨0, 0, 0⟩ : Vec3 ℚ) ⟨1, 0, 0⟩ ⟨0, 1, 0⟩ ⟨0, 0, 1⟩ 3 0,
        -Kj (⟨0, 0, 0⟩ : Vec3 ℚ) ⟨1, 0, 0⟩ ⟨0, 1, 0⟩ ⟨0, 0, 1⟩ 3 1,
        -Kj (⟨0, 0, 0⟩ : Vec3 ℚ) ⟨1, 0, 0⟩ ⟨0, 1, 0⟩ ⟨0, 0, 1⟩ 3 2] := by
  have hneg : (JTj (⟨0, 0, 0⟩ : Vec3 ℚ) ⟨1, 0, 0⟩ ⟨0, 1, 0⟩ ⟨0, 0, 1⟩).determinant < 0 := by
    norm_num [JTj, Mat3.determinant, Vec3.sub]
  have hpos : 0 < (JTj (⟨1, 0, 0⟩ : Vec3 ℚ) ⟨0, 0, 0⟩ ⟨0, 1, 0⟩ ⟨0, 0, 1⟩).determinant := by
    norm_num [JTj, Mat3.determinant, Vec3.sub]
  refine ⟨rfl, by simp [MatF.Valid], hneg, hpos, ?_⟩
  obtain ⟨C, hret, hrows⟩ :=
    C6_inverted_element_still_flipped (fun x : ℚ => x)
      [⟨0, 0, 0⟩, ⟨1, 0, 0⟩, ⟨0, 1, 0⟩, ⟨0, 0, 1⟩] ⟨4, [[1, 0, 2, 3], [0, 1, 2, 3]]⟩ ⟨0, 0, []⟩
      rfl (by simp [MatF.Valid]) 1 (by decide)
      (by
        intro r pa pb pc pd hr hread
        simp only [List.getElem?_cons_succ, List.getElem?_cons_zero, Option.some.injEq] at hr
        subst hr
        simp only [readTet, List.getElem?_cons_succ, List.getElem?_cons_zero, Option.bind_eq_bind,
          Option.some_bind, Option.pure_def, Option.some.injEq, Prod.mk.injEq] at hread
        obtain ⟨rfl, rfl, rfl, rfl⟩ := hread
        exact hneg)
      (by
        intro j hj r pa pb pc pd hr hread
        match j, hj with
        | 0, _ =>
          simp only [List.getElem?_cons_zero, Option.some.injEq] at hr
          subst hr
          simp only [readTet, List.getElem?_cons_succ, List.getElem?_cons_zero,
            Option.bind_eq_bind, Option.some_bind, Option.pure_def, Option.some.injEq,
            Prod.mk.injEq] at hread
          obtain ⟨rfl, rfl, rfl, rfl⟩ := hread
          exact hpos
        | j + 2, _ => simp at hr)
  exact ⟨C, hret, hrows 1 [0, 1, 2, 3] _ _ _ _ rfl rfl⟩

end invertedWitness

/-! ## A degenerate element in a batch -/

section degenerate

variable {α : Type} [LinearOrderedField α]

theorem forall₂_eraseIdx {β γ : Type} {R : β → γ → Prop} {l₁ : List β} {l₂ : List γ}
    (h : List.Forall₂ R l₁ l₂) (j : Nat) :
    List.Forall₂ R (l₁.eraseIdx j) (l₂.eraseIdx j) := by
  induction h generalizing j with
  | nil => exact List.Forall₂.nil
  | cons hab htl ih =>
    cases j with
    | zero => exact htl
    | succ j => exact List.Forall₂.cons hab (ih j)

theorem map_eraseIdx {β γ : Type} (f : β → γ) (xs : List β) (j : Nat) :
    (xs.eraseIdx j).map f = (xs.map f).eraseIdx j := by
  induction xs generalizing j with
  | nil => rfl
  | cons x xs ih =>
    cases j with
    | zero => rfl
    | succ j => simp [ih]

theorem negate_eraseIdx (rows : List (List α)) (j : Nat) :
    negate (rows.eraseIdx j) = (negate rows).eraseIdx j :=
  map_eraseIdx _ rows j

theorem all_eq_false_of_getElem? {β : Type} (p : β → Bool) (xs : List β) (j : Nat) (x : β)
    (hx : xs[j]? = some x) (hp : p x = false) : xs.all p = false := by
  rw [List.all_eq_false]
  exact ⟨x, List.getElem?_mem hx, by simp [hp]⟩

/-- C7 fails in the tetrahedron branch: next to the flat element (0,0,0), (1,0,0),
(2,0,0), (0,1,0) (determinant 0) the row of the well-shaped element
(1,0,0), (0,0,0), (0,1,0), (0,0,1) is left as computed, while in the batch
without the flat element the same row is negated. -/
theorem C7_counterexample :
    (JTj (⟨0, 0, 0⟩ : Vec3 ℚ) ⟨1, 0, 0⟩ ⟨2, 0, 0⟩ ⟨0, 1, 0⟩).determinant = 0 ∧
    ∃ C C' : MatC ℚ,
      cotangent (fun x : ℚ => x)
        [⟨0, 0, 0⟩, ⟨1, 0, 0⟩, ⟨0, 1, 0⟩, ⟨0, 0, 1⟩, ⟨1, 1, 1⟩, ⟨2, 0, 0⟩]
        ⟨4, [[1, 0, 2, 3], [0, 1, 5, 2]]⟩ ⟨0, 0, []⟩ = .returned C false ∧
      cotangent (fun x : ℚ => x)
        [⟨0, 0, 0⟩, ⟨1, 0, 0⟩, ⟨0, 1, 0⟩, ⟨0, 0, 1⟩, ⟨1, 1, 1⟩, ⟨2, 0, 0⟩]
        ⟨4, [[1, 0, 2, 3]]⟩ ⟨0, 0, []⟩ = .returned C' true ∧
      C.data[0]? = some ([-1/6, 0, -1/6, 0, -1/6, 0] : List ℚ) ∧
      C'.data[0]? = some ([1/6, 0, 1/6, 0, 1/6, 0] : List ℚ) ∧
      C.data[0]? ≠ C'.data[0]? := by
  refine ⟨by norm_num [JTj, Mat3.determinant, Vec3.sub],
    ⟨2, 6, [[-1/6, 0, -1/6, 0, -1/6, 0], [0, 0, 0, 0, 0, 0]]⟩,
    ⟨1, 6, [[1/6, 0, 1/6, 0, 1/6, 0]]⟩, ?_, ?_, rfl, rfl, ?_⟩
  · norm_num [cotangent, MatF.rows, tetLoop, tetElement, readTet, negate, diagPos, tetRow, Kj,
      EjTEj, Ej, volume, rhs, JTj, Mat3.determinant, Mat3.inverse, Mat3.mulVec, Vec3.sub,
      Vec3.dot]
  · norm_num [cotangent, MatF.rows, tetLoop, tetElement, readTet, negate, diagPos, tetRow, Kj,
      EjTEj, Ej, volume, rhs, JTj, Mat3.determinant, Mat3.inverse, Mat3.mulVec, Vec3.sub,
      Vec3.dot]
  · norm_num

/-- C7 as amended. In the triangle branch a degenerate element (collinear
vertices) is local to its row: the output for the batch without it is the output
with that row removed. In the tetrahedron branch a zero-volume element
suppresses the flip for the batch, and the rows of the other elements agree with
the output for the batch without it up to the batch sign: they are the same rows
when the reduced batch is not flipped and the negated rows when it is. -/
theorem C7_degenerate_element (sqrt : α → α) (V : List (Vec3 α)) (F : MatF) (C0 : MatC α)
    (hv : F.Valid V) (j : Nat) :
    (F.cols = 3 →
      (∃ r v0 v1 v2, F.data[j]? = some r ∧ readTriangle V r = some (v0, v1, v2) ∧
        (v1.sub v0).cross (v2.sub v0) = ⟨0, 0, 0⟩) →
      ∃ C C', cotangent sqrt V F C0 = .returned C false ∧
        cotangent sqrt V ⟨F.cols, F.data.eraseIdx j⟩ C0 = .returned C' false ∧
        C'.data = C.data.eraseIdx j) ∧
    (F.cols = 4 →
      (∃ r pa pb pc pd, F.data[j]? = some r ∧ readTet V r = some (pa, pb, pc, pd) ∧
        (JTj pa pb pc pd).determinant = 0) →
      ∃ C C' flipped', cotangent sqrt V F C0 = .returned C false ∧
        cotangent sqrt V ⟨F.cols, F.data.eraseIdx j⟩ C0 = .returned C' flipped' ∧
        C'.data = if flipped' then negate (C.data.eraseIdx j) else C.data.eraseIdx j) := by
  constructor
  · intro hc _
    obtain ⟨rows, hl, hf⟩ := triangleLoop_of_valid sqrt V F hc hv
    have hl' : triangleLoop sqrt V (F.data.eraseIdx j) = some (rows.eraseIdx j) :=
      (triangleLoop_eq_some_iff sqrt V _ _).2 (forall₂_eraseIdx hf j)
    exact ⟨_, _, cotangent_of_triangleLoop sqrt V F C0 hc rows hl,
      cotangent_of_triangleLoop sqrt V ⟨F.cols, F.data.eraseIdx j⟩ C0 hc _ hl', rfl⟩
  · rintro hc ⟨r, pa, pb, pc, pd, hj, hread, hdet⟩
    obtain ⟨prs, hf, hl⟩ := tetLoop_of_valid V F hc hv
    obtain ⟨pr, hpr, hR⟩ := forall₂_getElem? hf j r hj
    rw [tetElement_of_read V r pa pb pc pd hread, Option.some.injEq] at hR
    have hfalse : prs.all (fun pr => pr.1) = false := by
      apply all_eq_false_of_getElem? _ prs j pr hpr
      rw [← hR]
      exact diagPos_of_det_eq_zero pa pb pc pd hdet
    rw [hfalse] at hl
    have hl' : tetLoop V (F.data.eraseIdx j) true [] =
        some ((prs.eraseIdx j).all (fun pr => pr.1), (prs.eraseIdx j).map (fun pr => pr.2)) := by
      rw [tetLoop_eq_some_iff]
      exact ⟨_, forall₂_eraseIdx hf j, by simp⟩
    refine ⟨_, _, _, cotangent_of_tetLoop sqrt V F C0 hc _ _ hl,
      cotangent_of_tetLoop sqrt V ⟨F.cols, F.data.eraseIdx j⟩ C0 hc _ _ hl', ?_⟩
    simp only [Bool.false_eq_true, if_false, map_eraseIdx]

end degenerate

section degenerateWitness

/-- A triangle batch with the collinear element (0,0,0), (1,0,0), (2,0,0) in
row 0, and a tetrahedron batch with a flat element in row 1. -/
theorem C7_degenerate_element_witness :
    ((⟨3, [[0, 1, 5], [0, 1, 2]]⟩ : MatF).Valid
      ([⟨0, 0, 0⟩, ⟨1, 0, 0⟩, ⟨0, 1, 0⟩, ⟨0, 0, 1⟩, ⟨1, 1, 1⟩, ⟨2, 0, 0⟩] : List (Vec3 ℚ)) ∧
     ((⟨1, 0, 0⟩ : Vec3 ℚ).sub ⟨0, 0, 0⟩).cross ((⟨2, 0, 0⟩ : Vec3 ℚ).sub ⟨0, 0, 0⟩)
        = ⟨0, 0, 0⟩ ∧
     ∃ C C', cotangent (fun x : ℚ => x)
        [⟨0, 0, 0⟩, ⟨1, 0, 0⟩, ⟨0, 1, 0⟩, ⟨0, 0, 1⟩, ⟨1, 1, 1⟩, ⟨2, 0, 0⟩]
        ⟨3, [[0, 1, 5], [0, 1, 2]]⟩ ⟨0, 0, []⟩ = .returned C false ∧
      cotangent (fun x : ℚ => x)
        [⟨0, 0, 0⟩, ⟨1, 0, 0⟩, ⟨0, 1, 0⟩, ⟨0, 0, 1⟩, ⟨1, 1, 1⟩, ⟨2, 0, 0⟩]
        ⟨3, [[0, 1, 2]]⟩ ⟨0, 0, []⟩ = .returned C' false ∧
      C'.data = C.data.eraseIdx 0) ∧
    ((⟨4, [[1, 0, 2, 3], [0, 1, 5, 2]]⟩ : MatF).Valid
      ([⟨0, 0, 0⟩, ⟨1, 0, 0⟩, ⟨0, 1, 0⟩, ⟨0, 0, 1⟩, ⟨1, 1, 1⟩, ⟨2, 0, 0⟩] : List (Vec3 ℚ)) ∧
     (JTj (⟨0, 0, 0⟩ : Vec3 ℚ) ⟨1, 0, 0⟩ ⟨2, 0, 0⟩ ⟨0, 1, 0⟩).determinant = 0 ∧
     ∃ C C' flipped', cotangent (fun x : ℚ => x)
        [⟨0, 0, 0⟩, ⟨1, 0, 0⟩, ⟨0, 1, 0⟩, ⟨0, 0, 1⟩, ⟨1, 1, 1⟩, ⟨2, 0, 0⟩]
        ⟨4, [[1, 0, 2, 3], [0, 1, 5, 2]]⟩ ⟨0, 0, []⟩ = .returned C false ∧
      cotangent (fun x : ℚ => x)
        [⟨0, 0, 0⟩, ⟨1, 0, 0⟩, ⟨0, 1, 0⟩, ⟨0, 0, 1⟩, ⟨1, 1, 1⟩, ⟨2, 0, 0⟩]
        ⟨4, [[1, 0, 2, 3]]⟩ ⟨0, 0, []⟩ = .returned C' flipped' ∧
      C'.data = if flipped' then negate (C.data.eraseIdx 1) else C.data.eraseIdx 1) := by
  have hcol : ((⟨1, 0, 0⟩ : Vec3 ℚ).sub ⟨0, 0, 0⟩).cross ((⟨2, 0, 0⟩ : Vec3 ℚ).sub ⟨0, 0, 0⟩)
      = ⟨0, 0, 0⟩ := by
    norm_num [Vec3.cross, Vec3.sub]
  have hdet : (JTj (⟨0, 0, 0⟩ : Vec3 ℚ) ⟨1, 0, 0⟩ ⟨2, 0, 0⟩ ⟨0, 1, 0⟩).determinant = 0 := by
    norm_num [JTj, Mat3.determinant, Vec3.sub]
  exact ⟨⟨by simp [MatF.Valid], hcol,
      (C7_degenerate_element (fun x : ℚ => x)
        [⟨0, 0, 0⟩, ⟨1, 0, 0⟩, ⟨0, 1, 0⟩, ⟨0, 0, 1⟩, ⟨1, 1, 1⟩, ⟨2, 0, 0⟩]
        ⟨3, [[0, 1, 5], [0, 1, 2]]⟩ ⟨0, 0, []⟩ (by simp [MatF.Valid]) 0).1 rfl
        ⟨[0, 1, 5], ⟨0, 0, 0⟩, ⟨1, 0, 0⟩, ⟨2, 0, 0⟩, rfl, rfl, hcol⟩⟩,
    ⟨by simp [MatF.Valid], hdet,
      (C7_degenerate_element (fun x : ℚ => x)
        [⟨0, 0, 0⟩, ⟨1, 0, 0⟩, ⟨0, 1, 0⟩, ⟨0, 0, 1⟩, ⟨1, 1, 1⟩, ⟨2, 0, 0⟩]
        ⟨4, [[1, 0, 2, 3], [0, 1, 5, 2]]⟩ ⟨0, 0, []⟩ (by simp [MatF.Valid]) 1).2 rfl
        ⟨[0, 1, 5, 2], ⟨0, 0, 0⟩, ⟨1, 0, 0⟩, ⟨2, 0, 0⟩, ⟨0, 1, 0⟩, rfl, rfl, hdet⟩⟩⟩

end degenerateWitness

/-! ## Permuting the rows of the element array -/

section permutation

variable {α : Type} [LinearOrderedField α]

theorem forall₂_ofFn {β γ : Type} {R : β → γ → Prop} {n : Nat} (f : Fin n → β) (g : Fin n → γ)
    (h : ∀ i, R (f i) (g i)) : List.Forall₂ R (List.ofFn f) (List.ofFn g) := by
  rw [List.ofFn_eq_map, List.ofFn_eq_map, List.forall₂_map_left_iff,
    List.forall₂_map_right_iff, List.forall₂_same]
  intro i _
  exact h i

/-- Reading both lists of a row-wise relation through the same permutation keeps
the relation. -/
theorem forall₂_permute {β γ : Type} {R : β → γ → Prop} {l₁ : List β} {l₂ : List γ}
    (h : List.Forall₂ R l₁ l₂) (p : Equiv.Perm (Fin l₁.length)) (d₁ : β) (d₂ : γ) :
    List.Forall₂ R (List.ofFn (fun i : Fin l₁.length => l₁.getD (p i) d₁))
      (List.ofFn (fun i : Fin l₁.length => l₂.getD (p i) d₂)) := by
  apply forall₂_ofFn
  intro i
  have h1 : (p i : Nat) < l₁.length := (p i).isLt
  have h2 : (p i : Nat) < l₂.length := h.length_eq ▸ h1
  rw [List.getD_eq_getElem _ _ h1, List.getD_eq_getElem _ _ h2]
  exact ((List.forall₂_iff_get.1 h).2 (p i) h1 h2)

/-- Permuting a list does not change whether a test holds for all its entries. -/
theorem all_permute {β : Type} (q : β → Bool) (xs : List β) {n : Nat} (hn : xs.length = n)
    (p : Equiv.Perm (Fin n)) (d : β) :
    (List.ofFn (fun i : Fin n => xs.getD (p i) d)).all q = xs.all q := by
  subst hn
  rw [Bool.eq_iff_iff, List.all_eq_true, List.all_eq_true]
  constructor
  · intro h x hx
    obtain ⟨k, hk, rfl⟩ := List.getElem_of_mem hx
    apply h
    rw [List.mem_ofFn]
    refine ⟨p.symm ⟨k, hk⟩, ?_⟩
    simp only [Equiv.apply_symm_apply]
    exact List.getD_eq_getElem _ _ hk
  · intro h x hx
    rw [List.mem_ofFn] at hx
    obtain ⟨i, rfl⟩ := hx
    show q (xs.getD (p i) d) = true
    rw [List.getD_eq_getElem _ _ (p i).isLt]
    exact h _ (List.getElem_mem _)

theorem map_permute {β γ : Type} (f : β → γ) (xs : List β) {n : Nat} (p : Equiv.Perm (Fin n))
    (d : β) :
    (List.ofFn (fun i : Fin n => xs.getD (p i) d)).map f =
      List.ofFn (fun i : Fin n => (xs.map f).getD (p i) (f d)) := by
  rw [List.map_ofFn]
  congr 1
  funext i
  simp only [Function.comp]
  rw [List.getD_map]

theorem negate_permuteRows {n : Nat} (p : Equiv.Perm (Fin n)) (rows : List (List α)) :
    negate (permuteRows p rows) = permuteRows p (negate rows) := by
  unfold negate permuteRows
  rw [map_permute]
  rfl

/-- C8: for every valid input with 3 or 4 columns and every permutation p of the
rows of F, the call on the permuted element array returns the output for F with
its rows permuted by the same p, and the flip decision (the returned flag) is the
same for both. -/
theorem C8_row_permutation (sqrt : α → α) (V : List (Vec3 α)) (F : MatF) (C0 : MatC α)
    (hc : F.cols = 3 ∨ F.cols = 4) (hv : F.Valid V) (p : Equiv.Perm (Fin F.rows)) :
    ∃ C flipped, cotangent sqrt V F C0 = .returned C flipped ∧
      cotangent sqrt V ⟨F.cols, permuteRows p F.data⟩ C0 =
        .returned ⟨C.rows, C.cols, permuteRows p C.data⟩ flipped := by
  have hrows : (⟨F.cols, permuteRows p F.data⟩ : MatF).rows = F.rows := by
    simp [MatF.rows, permuteRows]
  rcases hc with hc | hc
  · obtain ⟨rows, hl, hf⟩ := triangleLoop_of_valid sqrt V F hc hv
    have hl' : triangleLoop sqrt V (permuteRows p F.data) = some (permuteRows p rows) :=
      (triangleLoop_eq_some_iff sqrt V _ _).2 (forall₂_permute hf p [] [])
    refine ⟨_, _, cotangent_of_triangleLoop sqrt V F C0 hc rows hl, ?_⟩
    rw [cotangent_of_triangleLoop sqrt V ⟨F.cols, permuteRows p F.data⟩ C0 hc _ hl', hrows]
  · obtain ⟨prs, hf, hl⟩ := tetLoop_of_valid V F hc hv
    have hf' := forall₂_permute hf p [] (false, [])
    have hl' : tetLoop V (permuteRows p F.data) true [] =
        some (prs.all (fun pr => pr.1), permuteRows p (prs.map (fun pr => pr.2))) := by
      rw [tetLoop_eq_some_iff]
      refine ⟨_, hf', ?_⟩
      rw [all_permute _ prs hf.length_eq.symm p, map_permute]
      simp only [Bool.true_and, List.nil_append]
      rfl
    refine ⟨_, _, cotangent_of_tetLoop sqrt V F C0 hc _ _ hl, ?_⟩
    rw [cotangent_of_tetLoop sqrt V ⟨F.cols, permuteRows p F.data⟩ C0 hc _ _ hl', hrows]
    cases prs.all (fun pr => pr.1)
    · simp
    · simp [negate_permuteRows]

end permutation

section permutationWitness

/-- Swapping the two rows of a batch of two tetrahedra swaps the two output rows. -/
theorem C8_row_permutation_witness :
    ((⟨4, [[1, 0, 2, 3], [0, 1, 2, 3]]⟩ : MatF).cols = 3 ∨
      (⟨4, [[1, 0, 2, 3], [0, 1, 2, 3]]⟩ : MatF).cols = 4) ∧
    (⟨4, [[1, 0, 2, 3], [0, 1, 2, 3]]⟩ : MatF).Valid
      ([⟨0, 0, 0⟩, ⟨1, 0, 0⟩, ⟨0, 1, 0⟩, ⟨0, 0, 1⟩] : List (Vec3 ℚ)) ∧
    permuteRows (Equiv.swap (0 : Fin 2) (1 : Fin 2)) [[1, 0, 2, 3], [0, 1, 2, 3]]
      = [[0, 1, 2, 3], [1, 0, 2, 3]] ∧
    ∃ C flipped,
      cotangent (fun x : ℚ => x) [⟨0, 0, 0⟩, ⟨1, 0, 0⟩, ⟨0, 1, 0⟩, ⟨0, 0, 1⟩]
        ⟨4, [[1, 0, 2, 3], [0, 1, 2, 3]]⟩ ⟨0, 0, []⟩ = .returned C flipped ∧
      cotangent (fun x : ℚ => x) [⟨0, 0, 0⟩, ⟨1, 0, 0⟩, ⟨0, 1, 0⟩, ⟨0, 0, 1⟩]
        ⟨4, permuteRows (Equiv.swap (0 : Fin 2) (1 : Fin 2)) [[1, 0, 2, 3], [0, 1, 2, 3]]⟩ ⟨0, 0, []⟩ =
        .returned ⟨C.rows, C.cols, permuteRows (Equiv.swap (0 : Fin 2) (1 : Fin 2)) C.data⟩ flipped :=
  ⟨Or.inr rfl, by simp [MatF.Valid], by decide,
    C8_row_permutation (fun x : ℚ => x) [⟨0, 0, 0⟩, ⟨1, 0, 0⟩, ⟨0, 1, 0⟩, ⟨0, 0, 1⟩]
      ⟨4, [[1, 0, 2, 3], [0, 1, 2, 3]]⟩ ⟨0, 0, []⟩ (Or.inr rfl) (by simp [MatF.Valid])
      (Equiv.swap (0 : Fin 2) (1 : Fin 2))⟩

end permutationWitness

/-! ## Scaling a triangle batch -/

section scaling

theorem readTriangle_map {α : Type} (f : Vec3 α → Vec3 α) (V : List (Vec3 α)) (r : List Nat)
    (v0 v1 v2 : Vec3 α) (h : readTriangle V r = some (v0, v1, v2)) :
    readTriangle (V.map f) r = some (f v0, f v1, f v2) := by
  rw [readTriangle_eq_some_iff] at h ⊢
  obtain ⟨i0, i1, i2, h0, h1, h2, w0, w1, w2⟩ := h
  exact ⟨i0, i1, i2, h0, h1, h2, by simp [List.getElem?_map, w0], by simp [List.getElem?_map, w1],
    by simp [List.getElem?_map, w2]⟩

theorem valid_map {α : Type} (f : Vec3 α → Vec3 α) (V : List (Vec3 α)) (F : MatF)
    (hv : F.Valid V) : F.Valid (V.map f) := by
  intro r hr
  obtain ⟨h1, h2⟩ := hv r hr
  exact ⟨h1, by simpa using h2⟩

/-- Scaling the three vertices by `k > 0` leaves the half cotangent unchanged. -/
theorem halfCotangentAt_smul (k : ℝ) (hk : 0 < k) (p q r : Vec3 ℝ) :
    halfCotangentAt Real.sqrt (Vec3.smul k p) (Vec3.smul k q) (Vec3.smul k r) =
      halfCotangentAt Real.sqrt p q r := by
  unfold halfCotangentAt
  have hd : ((Vec3.smul k q).sub (Vec3.smul k p)).dot ((Vec3.smul k r).sub (Vec3.smul k p)) =
      k ^ 2 * (q.sub p).dot (r.sub p) := by
    simp only [Vec3.smul, Vec3.sub, Vec3.dot]; ring
  have hx : (((Vec3.smul k q).sub (Vec3.smul k p)).cross
      ((Vec3.smul k r).sub (Vec3.smul k p))).pow2sum =
      (k ^ 2) ^ 2 * ((q.sub p).cross (r.sub p)).pow2sum := by
    simp only [Vec3.smul, Vec3.sub, Vec3.cross, Vec3.pow2sum]; ring
  have hk2 : (0 : ℝ) < k ^ 2 := by positivity
  rw [hd, hx, Real.sqrt_mul (by positivity), Real.sqrt_sq hk2.le]
  rw [show 2 * (k ^ 2 * Real.sqrt ((q.sub p).cross (r.sub p)).pow2sum) =
    k ^ 2 * (2 * Real.sqrt ((q.sub p).cross (r.sub p)).pow2sum) by ring]
  exact mul_div_mul_left _ _ hk2.ne'

/-- C9: over the reals, for every valid batch of non-degenerate triangles and
every k > 0, multiplying all vertex coordinates by k leaves the output
unchanged: each of the three weights of every triangle is the same. -/
theorem C9_triangle_scale_invariance (V : List (Vec3 ℝ)) (F : MatF) (C0 : MatC ℝ) (k : ℝ)
    (hk : 0 < k) (hc : F.cols = 3) (hv : F.Valid V)
    (_hnd : ∀ r ∈ F.data, ∀ v0 v1 v2, readTriangle V r = some (v0, v1, v2) →
      (v1.sub v0).cross (v2.sub v0) ≠ ⟨0, 0, 0⟩) :
    ∃ C flipped, cotangent Real.sqrt V F C0 = .returned C flipped ∧
      cotangent Real.sqrt (V.map (Vec3.smul k)) F C0 = .returned C flipped := by
  obtain ⟨rows, hret, hlen, hrows⟩ := cotangent_triangle_rows Real.sqrt V F C0 hc hv
  obtain ⟨rows', hret', hlen', hrows'⟩ :=
    cotangent_triangle_rows Real.sqrt (V.map (Vec3.smul k)) F C0 hc (valid_map _ V F hv)
  refine ⟨_, _, hret, ?_⟩
  rw [hret']
  have : rows' = rows := by
    apply List.ext_getElem?
    intro i
    by_cases hi : i < F.data.length
    · obtain ⟨hl, hidx⟩ := hv F.data[i] (List.getElem_mem hi)
      obtain ⟨v0, v1, v2, hread⟩ := readTriangle_isSome_of_valid V _ (hl.trans hc) hidx
      rw [hrows i _ v0 v1 v2 (List.getElem?_eq_getElem hi) hread,
        hrows' i _ _ _ _ (List.getElem?_eq_getElem hi) (readTriangle_map _ V _ v0 v1 v2 hread),
        triangleRow_eq_halfCotangent, triangleRow_eq_halfCotangent,
        halfCotangentAt_smul k hk, halfCotangentAt_smul k hk, halfCotangentAt_smul k hk]
    · have h1 : rows.length ≤ i := by rw [hlen]; exact Nat.le_of_not_lt hi
      have h2 : rows'.length ≤ i := by rw [hlen']; exact Nat.le_of_not_lt hi
      rw [List.getElem?_eq_none h1, List.getElem?_eq_none h2]
  rw [this]

/-- The triangle (0,0,0), (1,0,0), (0,1,0) scaled by 3. -/
theorem C9_triangle_scale_invariance_witness :
    (0 : ℝ) < 3 ∧ (⟨3, [[0, 1, 2]]⟩ : MatF).cols = 3 ∧
    (⟨3, [[0, 1, 2]]⟩ : MatF).Valid ([⟨0, 0, 0⟩, ⟨1, 0, 0⟩, ⟨0, 1, 0⟩] : List (Vec3 ℝ)) ∧
    ((⟨1, 0, 0⟩ : Vec3 ℝ).sub ⟨0, 0, 0⟩).cross ((⟨0, 1, 0⟩ : Vec3 ℝ).sub ⟨0, 0, 0⟩)
      ≠ ⟨0, 0, 0⟩ ∧
    ∃ C flipped,
      cotangent Real.sqrt [⟨0, 0, 0⟩, ⟨1, 0, 0⟩, ⟨0, 1, 0⟩] ⟨3, [[0, 1, 2]]⟩ ⟨0, 0, []⟩
        = .returned C flipped ∧
      cotangent Real.sqrt
        (([⟨0, 0, 0⟩, ⟨1, 0, 0⟩, ⟨0, 1, 0⟩] : List (Vec3 ℝ)).map (Vec3.smul 3))
        ⟨3, [[0, 1, 2]]⟩ ⟨0, 0, []⟩ = .returned C flipped := by
  have hnd : ((⟨1, 0, 0⟩ : Vec3 ℝ).sub ⟨0, 0, 0⟩).cross ((⟨0, 1, 0⟩ : Vec3 ℝ).sub ⟨0, 0, 0⟩)
      ≠ ⟨0, 0, 0⟩ := by
    simp [Vec3.cross, Vec3.sub]
  refine ⟨by norm_num, rfl, by simp [MatF.Valid], hnd, ?_⟩
  apply C9_triangle_scale_invariance _ _ _ 3 (by norm_num) rfl (by simp [MatF.Valid])
  intro r hr v0 v1 v2 hread
  simp only [List.mem_singleton] at hr
  subst hr
  simp only [readTriangle, List.getElem?_cons_succ, List.getElem?_cons_zero, Option.bind_eq_bind,
    Option.some_bind, Option.pure_def, Option.some.injEq, Prod.mk.injEq] at hread
  obtain ⟨rfl, rfl, rfl⟩ := hread
  exact hnd

end scaling

/-! ## The Gram matrix through the dot products of the rows of `JTj` -/

section gram

variable {α : Type} [LinearOrderedField α]

theorem Vec3.dot_comm (p q : Vec3 α) : p.dot q = q.dot p := by
  simp only [Vec3.dot]; ring

theorem Vec3.dot_smul_smul (a b : α) (p q : Vec3 α) :
    (Vec3.smul a p).dot (Vec3.smul b q) = a * b * p.dot q := by
  simp only [Vec3.dot, Vec3.smul]; ring

theorem Vec3.dot_add_left (p q r : Vec3 α) : (p.add q).dot r = p.dot r + q.dot r := by
  simp only [Vec3.dot, Vec3.add]; ring

theorem Vec3.dot_add_right (p q r : Vec3 α) : p.dot (q.add r) = p.dot q + p.dot r := by
  simp only [Vec3.dot, Vec3.add]; ring

/-- The Binet-Cauchy identity for the dot product of two cross products. -/
theorem Vec3.cross_dot_cross (a b c d : Vec3 α) :
    (a.cross b).dot (c.cross d) = a.dot c * b.dot d - a.dot d * b.dot c := by
  simp only [Vec3.dot, Vec3.cross]; ring

/-- The square of the determinant is the Gram determinant of the rows. -/
theorem Mat3.determinant_sq (A : Mat3 α) :
    A.determinant ^ 2 =
      A.row0.dot A.row0 * (A.row1.dot A.row1 * A.row2.dot A.row2 - A.row1.dot A.row2 ^ 2)
        - A.row0.dot A.row1 * (A.row0.dot A.row1 * A.row2.dot A.row2
            - A.row1.dot A.row2 * A.row0.dot A.row2)
        + A.row0.dot A.row2 * (A.row0.dot A.row1 * A.row1.dot A.row2
            - A.row1.dot A.row1 * A.row0.dot A.row2) := by
  obtain ⟨⟨a, b, c⟩, ⟨d, e, f⟩, ⟨g, k, m⟩⟩ := A
  simp only [Mat3.determinant, Vec3.dot]
  ring

/-- The columns of `Ej` are the cross products of the rows of `JTj` over the
determinant; the fourth is minus the sum of the other three. -/
theorem Ej_columns (pa pb pc pd : Vec3 α) :
    Ej pa pb pc pd 0 = Vec3.smul (1 / (JTj pa pb pc pd).determinant)
        ((pb.sub pd).cross (pc.sub pd)) ∧
    Ej pa pb pc pd 1 = Vec3.smul (1 / (JTj pa pb pc pd).determinant)
        ((pc.sub pd).cross (pa.sub pd)) ∧
    Ej pa pb pc pd 2 = Vec3.smul (1 / (JTj pa pb pc pd).determinant)
        ((pa.sub pd).cross (pb.sub pd)) ∧
    Ej pa pb pc pd 3 = Vec3.smul (-(1 / (JTj pa pb pc pd).determinant))
        ((((pb.sub pd).cross (pc.sub pd)).add ((pc.sub pd).cross (pa.sub pd))).add
          ((pa.sub pd).cross (pb.sub pd))) := by
  generalize hdet : (JTj pa pb pc pd).determinant = δ
  simp only [Ej, rhs, Mat3.inverse, Mat3.mulVec, hdet]
  simp only [JTj, Vec3.dot, Vec3.smul, Vec3.cross, Vec3.add, Vec3.mk.injEq]
  generalize pa.sub pd = u
  generalize pb.sub pd = v
  generalize pc.sub pd = w
  refine ⟨⟨?_, ?_, ?_⟩, ⟨?_, ?_, ?_⟩, ⟨?_, ?_, ?_⟩, ⟨?_, ?_, ?_⟩⟩ <;> ring

end gram

/-! ## The regular tetrahedron -/

section regular

/-- The call on a batch of the single tetrahedron `pa pb pc pd`. -/
theorem cotangent_single_tet {α : Type} [LinearOrderedField α] (sqrt : α → α)
    (pa pb pc pd : Vec3 α) (C0 : MatC α) :
    cotangent sqrt [pa, pb, pc, pd] ⟨4, [[0, 1, 2, 3]]⟩ C0 =
      .returned ⟨1, 6, if diagPos pa pb pc pd then negate [tetRow pa pb pc pd]
        else [tetRow pa pb pc pd]⟩ (diagPos pa pb pc pd) := by
  have h : tetLoop [pa, pb, pc, pd] [[0, 1, 2, 3]] true [] =
      some (diagPos pa pb pc pd, [tetRow pa pb pc pd]) := by
    simp [tetLoop, tetElement, readTet]
  exact cotangent_of_tetLoop sqrt [pa, pb, pc, pd] ⟨4, [[0, 1, 2, 3]]⟩ C0 rfl _ _ h

/-- C10: for every regular tetrahedron with unit edge length (all six squared
edge lengths equal to 1) given as a one-element batch, over the reals: the
volume |det|/6 is √2/12, the sign flip is applied, and the six weights of the
row are all equal to √2/24, which is strictly positive. -/
theorem C10_regular_tetrahedron (pa pb pc pd : Vec3 ℝ) (C0 : MatC ℝ)
    (hab : (pa.sub pb).pow2sum = 1) (hac : (pa.sub pc).pow2sum = 1)
    (had : (pa.sub pd).pow2sum = 1) (hbc : (pb.sub pc).pow2sum = 1)
    (hbd : (pb.sub pd).pow2sum = 1) (hcd : (pc.sub pd).pow2sum = 1) :
    volume pa pb pc pd = Real.sqrt 2 / 12 ∧
    0 < Real.sqrt 2 / 24 ∧
    cotangent Real.sqrt [pa, pb, pc, pd] ⟨4, [[0, 1, 2, 3]]⟩ C0 =
      .returned ⟨1, 6, [[Real.sqrt 2 / 24, Real.sqrt 2 / 24, Real.sqrt 2 / 24,
        Real.sqrt 2 / 24, Real.sqrt 2 / 24, Real.sqrt 2 / 24]]⟩ true := by
  simp only [Vec3.pow2sum, Vec3.sub] at hab hac had hbc hbd hcd
  have huu : (pa.sub pd).dot (pa.sub pd) = 1 := by
    simp only [Vec3.dot, Vec3.sub]; linear_combination had
  have hvv : (pb.sub pd).dot (pb.sub pd) = 1 := by
    simp only [Vec3.dot, Vec3.sub]; linear_combination hbd
  have hww : (pc.sub pd).dot (pc.sub pd) = 1 := by
    simp only [Vec3.dot, Vec3.sub]; linear_combination hcd
  have huv : (pa.sub pd).dot (pb.sub pd) = 1 / 2 := by
    simp only [Vec3.dot, Vec3.sub]; linear_combination (had + hbd - hab) / 2
  have huw : (pa.sub pd).dot (pc.sub pd) = 1 / 2 := by
    simp only [Vec3.dot, Vec3.sub]; linear_combination (had + hcd - hac) / 2
  have hvw : (pb.sub pd).dot (pc.sub pd) = 1 / 2 := by
    simp only [Vec3.dot, Vec3.sub]; linear_combination (hbd + hcd - hbc) / 2
  have hvu : (pb.sub pd).dot (pa.sub pd) = 1 / 2 := by rw [Vec3.dot_comm, huv]
  have hwu : (pc.sub pd).dot (pa.sub pd) = 1 / 2 := by rw [Vec3.dot_comm, huw]
  have hwv : (pc.sub pd).dot (pb.sub pd) = 1 / 2 := by rw [Vec3.dot_comm, hvw]
  have hdet2 : (JTj pa pb pc pd).determinant ^ 2 = 1 / 2 := by
    rw [Mat3.determinant_sq]
    simp only [JTj]
    rw [huu, hvv, hww, huv, huw, hvw]
    norm_num
  have hdet : (JTj pa pb pc pd).determinant ≠ 0 := by
    intro h0
    rw [h0] at hdet2
    norm_num at hdet2
  have hs2 : Real.sqrt 2 ^ 2 = 2 := Real.sq_sqrt (by norm_num)
  have hs2pos : 0 < Real.sqrt 2 := Real.sqrt_pos.2 (by norm_num)
  have habs : |(JTj pa pb pc pd).determinant| = Real.sqrt 2 / 2 := by
    have h1 : |(JTj pa pb pc pd).determinant| ^ 2 = (Real.sqrt 2 / 2) ^ 2 := by
      rw [sq_abs, hdet2, div_pow, hs2]; norm_num
    have h2 : 0 ≤ Real.sqrt 2 / 2 := by positivity
    exact (sq_eq_sq₀ (abs_nonneg _) h2).1 h1
  have hvol : volume pa pb pc pd = Real.sqrt 2 / 12 := by
    unfold volume
    rw [habs]
    ring
  have hinv : 1 / (JTj pa pb pc pd).determinant * (1 / (JTj pa pb pc pd).determinant) = 2 := by
    rw [div_mul_div_comm, one_mul, ← sq, hdet2]
    norm_num
  obtain ⟨hE0, hE1, hE2, hE3⟩ := Ej_columns pa pb pc pd
  have hK : ∀ i k : Fin 4, i ≠ k → Kj pa pb pc pd i k = -(Real.sqrt 2 / 24) := by
    intro i k hik
    have key : EjTEj pa pb pc pd i k = -(1 / 2) := by
      unfold EjTEj
      fin_cases i <;> fin_cases k <;> first
        | exact absurd rfl hik
        | (simp only [Fin.zero_eta, Fin.mk_one, Fin.reduceFinMk]
           simp only [hE0, hE1, hE2, hE3, Vec3.dot_smul_smul, Vec3.dot_add_left,
             Vec3.dot_add_right, Vec3.cross_dot_cross, huu, hvv, hww, huv, huw, hvw, hvu, hwu,
             hwv, neg_mul, mul_neg, neg_neg, hinv]
           norm_num)
    rw [Kj, key, hvol]
    ring
  refine ⟨hvol, by positivity, ?_⟩
  rw [cotangent_single_tet, diagPos_of_det_ne_zero pa pb pc pd hdet]
  simp only [if_true, negate, tetRow, List.map_cons, List.map_nil]
  rw [hK 1 2 (by decide), hK 2 0 (by decide), hK 0 1 (by decide), hK 3 0 (by decide),
    hK 3 1 (by decide), hK 3 2 (by decide)]
  norm_num

end regular

section regularWitness

/-- The regular tetrahedron on alternate corners of the cube of half side √2/4. -/
theorem C10_regular_tetrahedron_witness :
    (((⟨Real.sqrt 2 / 4, Real.sqrt 2 / 4, Real.sqrt 2 / 4⟩ : Vec3 ℝ).sub
        ⟨Real.sqrt 2 / 4, -(Real.sqrt 2 / 4), -(Real.sqrt 2 / 4)⟩).pow2sum = 1 ∧
     ((⟨Real.sqrt 2 / 4, Real.sqrt 2 / 4, Real.sqrt 2 / 4⟩ : Vec3 ℝ).sub
        ⟨-(Real.sqrt 2 / 4), Real.sqrt 2 / 4, -(Real.sqrt 2 / 4)⟩).pow2sum = 1 ∧
     ((⟨Real.sqrt 2 / 4, Real.sqrt 2 / 4, Real.sqrt 2 / 4⟩ : Vec3 ℝ).sub
        ⟨-(Real.sqrt 2 / 4), -(Real.sqrt 2 / 4), Real.sqrt 2 / 4⟩).pow2sum = 1 ∧
     ((⟨Real.sqrt 2 / 4, -(Real.sqrt 2 / 4), -(Real.sqrt 2 / 4)⟩ : Vec3 ℝ).sub
        ⟨-(Real.sqrt 2 / 4), Real.sqrt 2 / 4, -(Real.sqrt 2 / 4)⟩).pow2sum = 1 ∧
     ((⟨Real.sqrt 2 / 4, -(Real.sqrt 2 / 4), -(Real.sqrt 2 / 4)⟩ : Vec3 ℝ).sub
        ⟨-(Real.sqrt 2 / 4), -(Real.sqrt 2 / 4), Real.sqrt 2 / 4⟩).pow2sum = 1 ∧
     ((⟨-(Real.sqrt 2 / 4), Real.sqrt 2 / 4, -(Real.sqrt 2 / 4)⟩ : Vec3 ℝ).sub
        ⟨-(Real.sqrt 2 / 4), -(Real.sqrt 2 / 4), Real.sqrt 2 / 4⟩).pow2sum = 1) ∧
    volume (⟨Real.sqrt 2 / 4, Real.sqrt 2 / 4, Real.sqrt 2 / 4⟩ : Vec3 ℝ)
        ⟨Real.sqrt 2 / 4, -(Real.sqrt 2 / 4), -(Real.sqrt 2 / 4)⟩
        ⟨-(Real.sqrt 2 / 4), Real.sqrt 2 / 4, -(Real.sqrt 2 / 4)⟩
        ⟨-(Real.sqrt 2 / 4), -(Real.sqrt 2 / 4), Real.sqrt 2 / 4⟩ = Real.sqrt 2 / 12 ∧
    0 < Real.sqrt 2 / 24 ∧
    cotangent Real.sqrt
        [⟨Real.sqrt 2 / 4, Real.sqrt 2 / 4, Real.sqrt 2 / 4⟩,
         ⟨Real.sqrt 2 / 4, -(Real.sqrt 2 / 4), -(Real.sqrt 2 / 4)⟩,
         ⟨-(Real.sqrt 2 / 4), Real.sqrt 2 / 4, -(Real.sqrt 2 / 4)⟩,
         ⟨-(Real.sqrt 2 / 4), -(Real.sqrt 2 / 4), Real.sqrt 2 / 4⟩]
        ⟨4, [[0, 1, 2, 3]]⟩ ⟨0, 0, []⟩ =
      .returned ⟨1, 6, [[Real.sqrt 2 / 24, Real.sqrt 2 / 24, Real.sqrt 2 / 24,
        Real.sqrt 2 / 24, Real.sqrt 2 / 24, Real.sqrt 2 / 24]]⟩ true := by
  have hs2 : Real.sqrt 2 ^ 2 = 2 := Real.sq_sqrt (by norm_num)
  have h1 : ((⟨Real.sqrt 2 / 4, Real.sqrt 2 / 4, Real.sqrt 2 / 4⟩ : Vec3 ℝ).sub
      ⟨Real.sqrt 2 / 4, -(Real.sqrt 2 / 4), -(Real.sqrt 2 / 4)⟩).pow2sum = 1 := by
    simp only [Vec3.pow2sum, Vec3.sub]; linear_combination (1 / 2) * hs2
  have h2 : ((⟨Real.sqrt 2 / 4, Real.sqrt 2 / 4, Real.sqrt 2 / 4⟩ : Vec3 ℝ).sub
      ⟨-(Real.sqrt 2 / 4), Real.sqrt 2 / 4, -(Real.sqrt 2 / 4)⟩).pow2sum = 1 := by
    simp only [Vec3.pow2sum, Vec3.sub]; linear_combination (1 / 2) * hs2
  have h3 : ((⟨Real.sqrt 2 / 4, Real.sqrt 2 / 4, Real.sqrt 2 / 4⟩ : Vec3 ℝ).sub
      ⟨-(Real.sqrt 2 / 4), -(Real.sqrt 2 / 4), Real.sqrt 2 / 4⟩).pow2sum = 1 := by
    simp only [Vec3.pow2sum, Vec3.sub]; linear_combination (1 / 2) * hs2
  have h4 : ((⟨Real.sqrt 2 / 4, -(Real.sqrt 2 / 4), -(Real.sqrt 2 / 4)⟩ : Vec3 ℝ).sub
      ⟨-(Real.sqrt 2 / 4), Real.sqrt 2 / 4, -(Real.sqrt 2 / 4)⟩).pow2sum = 1 := by
    simp only [Vec3.pow2sum, Vec3.sub]; linear_combination (1 / 2) * hs2
  have h5 : ((⟨Real.sqrt 2 / 4, -(Real.sqrt 2 / 4), -(Real.sqrt 2 / 4)⟩ : Vec3 ℝ).sub
      ⟨-(Real.sqrt 2 / 4), -(Real.sqrt 2 / 4), Real.sqrt 2 / 4⟩).pow2sum = 1 := by
    simp only [Vec3.pow2sum, Vec3.sub]; linear_combination (1 / 2) * hs2
  have h6 : ((⟨-(Real.sqrt 2 / 4), Real.sqrt 2 / 4, -(Real.sqrt 2 / 4)⟩ : Vec3 ℝ).sub
      ⟨-(Real.sqrt 2 / 4), -(Real.sqrt 2 / 4), Real.sqrt 2 / 4⟩).pow2sum = 1 := by
    simp only [Vec3.pow2sum, Vec3.sub]; linear_combination (1 / 2) * hs2
  exact ⟨⟨h1, h2, h3, h4, h5, h6⟩,
    C10_regular_tetrahedron _ _ _ _ ⟨0, 0, []⟩ h1 h2 h3 h4 h5 h6⟩

end regularWitness

/-! ## Right and equilateral triangles -/

section specialTriangles

/-- C11: over the reals, for every valid triangle batch and every element that is
a right triangle with legs p > 0, q > 0 and hypotenuse h (p² + q² = h²) whose
right angle is at vertex k (so the two edges at vertex k have lengths p and q and
the edge opposite vertex k has length h), the entry in column k, the weight
opposite the hypotenuse, is exactly 0. -/
theorem C11_right_angle_weight_zero (V : List (Vec3 ℝ)) (F : MatF) (C0 : MatC ℝ)
    (hc : F.cols = 3) (hv : F.Valid V) :
    ∃ C flipped, cotangent Real.sqrt V F C0 = .returned C flipped ∧
      ∀ (i : Nat) r v0 v1 v2 (p q h : ℝ), F.data[i]? = some r →
        readTriangle V r = some (v0, v1, v2) → 0 < p → 0 < q → p ^ 2 + q ^ 2 = h ^ 2 →
        ∃ row, C.data[i]? = some row ∧
          (Real.sqrt (v2.sub v0).pow2sum = p → Real.sqrt (v0.sub v1).pow2sum = q →
            Real.sqrt (v1.sub v2).pow2sum = h → row[0]? = some 0) ∧
          (Real.sqrt (v0.sub v1).pow2sum = p → Real.sqrt (v1.sub v2).pow2sum = q →
            Real.sqrt (v2.sub v0).pow2sum = h → row[1]? = some 0) ∧
          (Real.sqrt (v1.sub v2).pow2sum = p → Real.sqrt (v2.sub v0).pow2sum = q →
            Real.sqrt (v0.sub v1).pow2sum = h → row[2]? = some 0) := by
  obtain ⟨rows, hret, -, hrows⟩ := cotangent_triangle_rows Real.sqrt V F C0 hc hv
  refine ⟨_, _, hret, ?_⟩
  intro i r v0 v1 v2 p q h hi hr _ _ hpq
  refine ⟨_, hrows i r v0 v1 v2 hi hr, ?_, ?_, ?_⟩
  · intro e1 e2 e0
    have : p * p + q * q - h * h = 0 := by linear_combination hpq
    simp [triangleRow, l, e0, e1, e2, this]
  · intro e2 e0 e1
    have : p * p + q * q - h * h = 0 := by linear_combination hpq
    simp [triangleRow, l, e0, e1, e2, this]
  · intro e0 e1 e2
    have : p * p + q * q - h * h = 0 := by linear_combination hpq
    simp [triangleRow, l, e0, e1, e2, this]

/-- The 3-4-5 triangle (0,0,0), (3,0,0), (0,4,0) with its right angle at vertex 0. -/
theorem C11_right_angle_weight_zero_witness :
    (⟨3, [[0, 1, 2]]⟩ : MatF).cols = 3 ∧
    (⟨3, [[0, 1, 2]]⟩ : MatF).Valid ([⟨0, 0, 0⟩, ⟨3, 0, 0⟩, ⟨0, 4, 0⟩] : List (Vec3 ℝ)) ∧
    ((0 : ℝ) < 4 ∧ (0 : ℝ) < 3 ∧ (4 : ℝ) ^ 2 + 3 ^ 2 = 5 ^ 2) ∧
    (Real.sqrt ((⟨0, 4, 0⟩ : Vec3 ℝ).sub ⟨0, 0, 0⟩).pow2sum = 4 ∧
      Real.sqrt ((⟨0, 0, 0⟩ : Vec3 ℝ).sub ⟨3, 0, 0⟩).pow2sum = 3 ∧
      Real.sqrt ((⟨3, 0, 0⟩ : Vec3 ℝ).sub ⟨0, 4, 0⟩).pow2sum = 5) ∧
    ∃ C flipped row,
      cotangent Real.sqrt [⟨0, 0, 0⟩, ⟨3, 0, 0⟩, ⟨0, 4, 0⟩] ⟨3, [[0, 1, 2]]⟩ ⟨0, 0, []⟩
        = .returned C flipped ∧
      C.data[0]? = some row ∧ row[0]? = some 0 := by
  have e1 : Real.sqrt ((⟨0, 4, 0⟩ : Vec3 ℝ).sub ⟨0, 0, 0⟩).pow2sum = 4 := by
    rw [show ((⟨0, 4, 0⟩ : Vec3 ℝ).sub ⟨0, 0, 0⟩).pow2sum = 4 ^ 2 by
      norm_num [Vec3.pow2sum, Vec3.sub]]
    exact Real.sqrt_sq (by norm_num)
  have e2 : Real.sqrt ((⟨0, 0, 0⟩ : Vec3 ℝ).sub ⟨3, 0, 0⟩).pow2sum = 3 := by
    rw [show ((⟨0, 0, 0⟩ : Vec3 ℝ).sub ⟨3, 0, 0⟩).pow2sum = 3 ^ 2 by
      norm_num [Vec3.pow2sum, Vec3.sub]]
    exact Real.sqrt_sq (by norm_num)
  have e0 : Real.sqrt ((⟨3, 0, 0⟩ : Vec3 ℝ).sub ⟨0, 4, 0⟩).pow2sum = 5 := by
    rw [show ((⟨3, 0, 0⟩ : Vec3 ℝ).sub ⟨0, 4, 0⟩).pow2sum = 5 ^ 2 by
      norm_num [Vec3.pow2sum, Vec3.sub]]
    exact Real.sqrt_sq (by norm_num)
  refine ⟨rfl, by simp [MatF.Valid], ⟨by norm_num, by norm_num, by norm_num⟩, ⟨e1, e2, e0⟩, ?_⟩
  obtain ⟨C, flipped, hret, hrow⟩ :=
    C11_right_angle_weight_zero [⟨0, 0, 0⟩, ⟨3, 0, 0⟩, ⟨0, 4, 0⟩] ⟨3, [[0, 1, 2]]⟩ ⟨0, 0, []⟩
      rfl (by simp [MatF.Valid])
  obtain ⟨row, h1, h2, -, -⟩ := hrow 0 [0, 1, 2] ⟨0, 0, 0⟩ ⟨3, 0, 0⟩ ⟨0, 4, 0⟩ 4 3 5 rfl rfl
    (by norm_num) (by norm_num) (by norm_num)
  exact ⟨C, flipped, row, hret, h1, h2 e1 e2 e0⟩

/-- C12: over the reals, for every valid triangle batch and every element that is
equilateral (its three edge lengths are equal and positive), the three weights of
its row are equal to one another. -/
theorem C12_equilateral_weights_equal (V : List (Vec3 ℝ)) (F : MatF) (C0 : MatC ℝ)
    (hc : F.cols = 3) (hv : F.Valid V) :
    ∃ C flipped, cotangent Real.sqrt V F C0 = .returned C flipped ∧
      ∀ (i : Nat) r v0 v1 v2 (a : ℝ), F.data[i]? = some r →
        readTriangle V r = some (v0, v1, v2) → 0 < a →
        Real.sqrt (v1.sub v2).pow2sum = a → Real.sqrt (v2.sub v0).pow2sum = a →
        Real.sqrt (v0.sub v1).pow2sum = a →
        ∃ w, C.data[i]? = some [w, w, w] := by
  obtain ⟨rows, hret, -, hrows⟩ := cotangent_triangle_rows Real.sqrt V F C0 hc hv
  refine ⟨_, _, hret, ?_⟩
  intro i r v0 v1 v2 a hi hr _ e0 e1 e2
  refine ⟨(a * a + a * a - a * a) / dblA Real.sqrt (a, a, a) / 4, ?_⟩
  show rows[i]? = _
  rw [hrows i r v0 v1 v2 hi hr]
  simp only [triangleRow, l, e0, e1, e2]

end specialTriangles

section specialTrianglesWitness

/-- The equilateral triangle (1,0,0), (0,1,0), (0,0,1) of edge length √2. -/
theorem C12_equilateral_weights_equal_witness :
    (⟨3, [[0, 1, 2]]⟩ : MatF).cols = 3 ∧
    (⟨3, [[0, 1, 2]]⟩ : MatF).Valid ([⟨1, 0, 0⟩, ⟨0, 1, 0⟩, ⟨0, 0, 1⟩] : List (Vec3 ℝ)) ∧
    0 < Real.sqrt 2 ∧
    (Real.sqrt ((⟨0, 1, 0⟩ : Vec3 ℝ).sub ⟨0, 0, 1⟩).pow2sum = Real.sqrt 2 ∧
      Real.sqrt ((⟨0, 0, 1⟩ : Vec3 ℝ).sub ⟨1, 0, 0⟩).pow2sum = Real.sqrt 2 ∧
      Real.sqrt ((⟨1, 0, 0⟩ : Vec3 ℝ).sub ⟨0, 1, 0⟩).pow2sum = Real.sqrt 2) ∧
    ∃ C flipped w,
      cotangent Real.sqrt [⟨1, 0, 0⟩, ⟨0, 1, 0⟩, ⟨0, 0, 1⟩] ⟨3, [[0, 1, 2]]⟩ ⟨0, 0, []⟩
        = .returned C flipped ∧
      C.data[0]? = some [w, w, w] := by
  have hpos : 0 < Real.sqrt 2 := Real.sqrt_pos.2 (by norm_num)
  have e0 : Real.sqrt ((⟨0, 1, 0⟩ : Vec3 ℝ).sub ⟨0, 0, 1⟩).pow2sum = Real.sqrt 2 := by
    congr 1; norm_num [Vec3.pow2sum, Vec3.sub]
  have e1 : Real.sqrt ((⟨0, 0, 1⟩ : Vec3 ℝ).sub ⟨1, 0, 0⟩).pow2sum = Real.sqrt 2 := by
    congr 1; norm_num [Vec3.pow2sum, Vec3.sub]
  have e2 : Real.sqrt ((⟨1, 0, 0⟩ : Vec3 ℝ).sub ⟨0, 1, 0⟩).pow2sum = Real.sqrt 2 := by
    congr 1; norm_num [Vec3.pow2sum, Vec3.sub]
  refine ⟨rfl, by simp [MatF.Valid], hpos, ⟨e0, e1, e2⟩, ?_⟩
  obtain ⟨C, flipped, hret, hrow⟩ :=
    C12_equilateral_weights_equal [⟨1, 0, 0⟩, ⟨0, 1, 0⟩, ⟨0, 0, 1⟩] ⟨3, [[0, 1, 2]]⟩ ⟨0, 0, []⟩
      rfl (by simp [MatF.Valid])
  obtain ⟨w, hw⟩ := hrow 0 [0, 1, 2] ⟨1, 0, 0⟩ ⟨0, 1, 0⟩ ⟨0, 0, 1⟩ (Real.sqrt 2) rfl rfl hpos
    e0 e1 e2
  exact ⟨C, flipped, w, hret, hw⟩

end specialTrianglesWitness

/-! ## The columns of `Ej` are barycentric gradients -/

section gradients

variable {α : Type} [LinearOrderedField α]

/-- The fourth column of `Ej` is minus the sum of the first three. -/
theorem Ej_three (pa pb pc pd : Vec3 α) :
    Ej pa pb pc pd 3 =
      Vec3.smul (-1) (((Ej pa pb pc pd 0).add (Ej pa pb pc pd 1)).add (Ej pa pb pc pd 2)) := by
  obtain ⟨h0, h1, h2, h3⟩ := Ej_columns pa pb pc pd
  rw [h0, h1, h2, h3]
  simp only [Vec3.smul, Vec3.add, Vec3.mk.injEq]
  refine ⟨?_, ?_, ?_⟩ <;> ring

/-- C13: for every non-degenerate tetrahedron (a,b,c,d) the columns of E are the
gradients of the barycentric coordinate functions of a, b, c, d in that order:
for x, y in {a,b,c} the column of x dotted with p_y - p_d is 1 when x = y and 0
otherwise, the column of d is minus the sum of the other three columns, and
each unflipped edge weight K(x,y) is the volume times the dot product of the
columns of x and y. -/
theorem C13_barycentric_gradients (pa pb pc pd : Vec3 α)
    (h : (JTj pa pb pc pd).determinant ≠ 0) :
    ((Ej pa pb pc pd 0).dot (pa.sub pd) = 1 ∧ (Ej pa pb pc pd 0).dot (pb.sub pd) = 0 ∧
      (Ej pa pb pc pd 0).dot (pc.sub pd) = 0) ∧
    ((Ej pa pb pc pd 1).dot (pa.sub pd) = 0 ∧ (Ej pa pb pc pd 1).dot (pb.sub pd) = 1 ∧
      (Ej pa pb pc pd 1).dot (pc.sub pd) = 0) ∧
    ((Ej pa pb pc pd 2).dot (pa.sub pd) = 0 ∧ (Ej pa pb pc pd 2).dot (pb.sub pd) = 0 ∧
      (Ej pa pb pc pd 2).dot (pc.sub pd) = 1) ∧
    Ej pa pb pc pd 3 =
      Vec3.smul (-1) (((Ej pa pb pc pd 0).add (Ej pa pb pc pd 1)).add (Ej pa pb pc pd 2)) ∧
    (∀ x y : Fin 4,
      Kj pa pb pc pd x y = volume pa pb pc pd * (Ej pa pb pc pd x).dot (Ej pa pb pc pd y)) ∧
    tetRow pa pb pc pd =
      [volume pa pb pc pd * (Ej pa pb pc pd 1).dot (Ej pa pb pc pd 2),
       volume pa pb pc pd * (Ej pa pb pc pd 2).dot (Ej pa pb pc pd 0),
       volume pa pb pc pd * (Ej pa pb pc pd 0).dot (Ej pa pb pc pd 1),
       volume pa pb pc pd * (Ej pa pb pc pd 3).dot (Ej pa pb pc pd 0),
       volume pa pb pc pd * (Ej pa pb pc pd 3).dot (Ej pa pb pc pd 1),
       volume pa pb pc pd * (Ej pa pb pc pd 3).dot (Ej pa pb pc pd 2)] := by
  have hcol : ∀ k : Fin 4,
      (pa.sub pd).dot (Ej pa pb pc pd k) = (rhs k : Vec3 α).x ∧
      (pb.sub pd).dot (Ej pa pb pc pd k) = (rhs k : Vec3 α).y ∧
      (pc.sub pd).dot (Ej pa pb pc pd k) = (rhs k : Vec3 α).z := by
    intro k
    have hm := Mat3.mulVec_inverse_mulVec (JTj pa pb pc pd) h (rhs k)
    have hx := congrArg Vec3.x hm
    have hy := congrArg Vec3.y hm
    have hz := congrArg Vec3.z hm
    exact ⟨hx, hy, hz⟩
  have hK : ∀ x y : Fin 4,
      Kj pa pb pc pd x y = volume pa pb pc pd * (Ej pa pb pc pd x).dot (Ej pa pb pc pd y) := by
    intro x y
    rw [Kj, EjTEj, mul_comm]
  refine ⟨⟨?_, ?_, ?_⟩, ⟨?_, ?_, ?_⟩, ⟨?_, ?_, ?_⟩, Ej_three pa pb pc pd, hK, ?_⟩
  · rw [Vec3.dot_comm]; exact (hcol 0).1
  · rw [Vec3.dot_comm]; exact (hcol 0).2.1
  · rw [Vec3.dot_comm]; exact (hcol 0).2.2
  · rw [Vec3.dot_comm]; exact (hcol 1).1
  · rw [Vec3.dot_comm]; exact (hcol 1).2.1
  · rw [Vec3.dot_comm]; exact (hcol 1).2.2
  · rw [Vec3.dot_comm]; exact (hcol 2).1
  · rw [Vec3.dot_comm]; exact (hcol 2).2.1
  · rw [Vec3.dot_comm]; exact (hcol 2).2.2
  · simp only [tetRow, hK]

/-- The tetrahedron (1,0,0), (0,0,0), (0,1,0), (0,0,1), of determinant 1. -/
theorem C13_barycentric_gradients_witness :
    (JTj (⟨1, 0, 0⟩ : Vec3 ℚ) ⟨0, 0, 0⟩ ⟨0, 1, 0⟩ ⟨0, 0, 1⟩).determinant ≠ 0 ∧
    (Ej (⟨1, 0, 0⟩ : Vec3 ℚ) ⟨0, 0, 0⟩ ⟨0, 1, 0⟩ ⟨0, 0, 1⟩ 0).dot
      ((⟨1, 0, 0⟩ : Vec3 ℚ).sub ⟨0, 0, 1⟩) = 1 ∧
    Ej (⟨1, 0, 0⟩ : Vec3 ℚ) ⟨0, 0, 0⟩ ⟨0, 1, 0⟩ ⟨0, 0, 1⟩ 3 =
      Vec3.smul (-1) (((Ej (⟨1, 0, 0⟩ : Vec3 ℚ) ⟨0, 0, 0⟩ ⟨0, 1, 0⟩ ⟨0, 0, 1⟩ 0).add
        (Ej (⟨1, 0, 0⟩ : Vec3 ℚ) ⟨0, 0, 0⟩ ⟨0, 1, 0⟩ ⟨0, 0, 1⟩ 1)).add
        (Ej (⟨1, 0, 0⟩ : Vec3 ℚ) ⟨0, 0, 0⟩ ⟨0, 1, 0⟩ ⟨0, 0, 1⟩ 2)) := by
  have hdet : (JTj (⟨1, 0, 0⟩ : Vec3 ℚ) ⟨0, 0, 0⟩ ⟨0, 1, 0⟩ ⟨0, 0, 1⟩).determinant ≠ 0 := by
    norm_num [JTj, Mat3.determinant, Vec3.sub]
  have h := C13_barycentric_gradients (⟨1, 0, 0⟩ : Vec3 ℚ) ⟨0, 0, 0⟩ ⟨0, 1, 0⟩ ⟨0, 0, 1⟩ hdet
  exact ⟨hdet, h.1.1, h.2.2.2.1⟩

end gradients

/-! ## Heron's doubled area and collinear vertices -/

section doubledArea

theorem pow2sum_eq_zero_iff {α : Type} [LinearOrderedField α] (p : Vec3 α) :
    p.pow2sum = 0 ↔ p = ⟨0, 0, 0⟩ := by
  obtain ⟨x, y, z⟩ := p
  simp only [Vec3.pow2sum, Vec3.mk.injEq]
  constructor
  · intro h
    have hx : x = 0 := by nlinarith [sq_nonneg x, sq_nonneg y, sq_nonneg z]
    have hy : y = 0 := by nlinarith [sq_nonneg x, sq_nonneg y, sq_nonneg z]
    have hz : z = 0 := by nlinarith [sq_nonneg x, sq_nonneg y, sq_nonneg z]
    exact ⟨hx, hy, hz⟩
  · rintro ⟨rfl, rfl, rfl⟩
    norm_num

/-- C14: over the reals, for every three vertices v0, v1, v2 the Heron radicand
s (s - l0) (s - l1) (s - l2) is non-negative and the doubled area
dblA = 2 √(s (s - l0) (s - l1) (s - l2)) equals the norm of (v1 - v0) × (v2 - v0);
dblA is zero exactly when the three vertices are collinear (the cross product
vanishes) and strictly positive otherwise. -/
theorem C14_heron_doubled_area (v0 v1 v2 : Vec3 ℝ) :
    0 ≤ s (l Real.sqrt v0 v1 v2) * (s (l Real.sqrt v0 v1 v2) - (l Real.sqrt v0 v1 v2).1) *
      (s (l Real.sqrt v0 v1 v2) - (l Real.sqrt v0 v1 v2).2.1) *
      (s (l Real.sqrt v0 v1 v2) - (l Real.sqrt v0 v1 v2).2.2) ∧
    dblA Real.sqrt (l Real.sqrt v0 v1 v2) =
      Real.sqrt ((v1.sub v0).cross (v2.sub v0)).pow2sum ∧
    (dblA Real.sqrt (l Real.sqrt v0 v1 v2) = 0 ↔
      (v1.sub v0).cross (v2.sub v0) = ⟨0, 0, 0⟩) ∧
    ((v1.sub v0).cross (v2.sub v0) ≠ ⟨0, 0, 0⟩ →
      0 < dblA Real.sqrt (l Real.sqrt v0 v1 v2)) := by
  have hd := dblA_eq_cross_norm v0 v1 v2
  have hnn := pow2sum_nonneg ((v1.sub v0).cross (v2.sub v0))
  have hzero : dblA Real.sqrt (l Real.sqrt v0 v1 v2) = 0 ↔
      (v1.sub v0).cross (v2.sub v0) = ⟨0, 0, 0⟩ := by
    rw [hd, Real.sqrt_eq_zero hnn, pow2sum_eq_zero_iff]
  refine ⟨?_, hd, hzero, ?_⟩
  · rw [heron_radicand]
    positivity
  · intro hne
    have h0 : 0 ≤ dblA Real.sqrt (l Real.sqrt v0 v1 v2) := by
      rw [hd]; exact Real.sqrt_nonneg _
    exact lt_of_le_of_ne h0 (fun h => hne (hzero.1 h.symm))

/-- The triangle (0,0,0), (1,0,0), (0,1,0) is not collinear: its doubled area is
positive. -/
theorem C14_heron_doubled_area_witness :
    ((⟨1, 0, 0⟩ : Vec3 ℝ).sub ⟨0, 0, 0⟩).cross ((⟨0, 1, 0⟩ : Vec3 ℝ).sub ⟨0, 0, 0⟩)
      ≠ ⟨0, 0, 0⟩ ∧
    0 < dblA Real.sqrt (l Real.sqrt (⟨0, 0, 0⟩ : Vec3 ℝ) ⟨1, 0, 0⟩ ⟨0, 1, 0⟩) := by
  have hne : ((⟨1, 0, 0⟩ : Vec3 ℝ).sub ⟨0, 0, 0⟩).cross ((⟨0, 1, 0⟩ : Vec3 ℝ).sub ⟨0, 0, 0⟩)
      ≠ ⟨0, 0, 0⟩ := by
    simp [Vec3.cross, Vec3.sub]
  exact ⟨hne, (C14_heron_doubled_area ⟨0, 0, 0⟩ ⟨1, 0, 0⟩ ⟨0, 1, 0⟩).2.2.2 hne⟩

end doubledArea

/-! ## The sign of the flipped weights -/

section flippedSign

variable {α : Type} [LinearOrderedField α]

theorem volume_nonneg (pa pb pc pd : Vec3 α) : 0 ≤ volume pa pb pc pd := by
  unfold volume
  positivity

/-- A positive diagonal entry of `Kj` makes the volume positive. -/
theorem volume_pos_of_diag (pa pb pc pd : Vec3 α) (i : Fin 4)
    (h : 0 < Kj pa pb pc pd i i) : 0 < volume pa pb pc pd := by
  rcases (volume_nonneg pa pb pc pd).lt_or_eq with hlt | heq
  · exact hlt
  · rw [Kj, ← heq, mul_zero] at h
    exact absurd h (lt_irrefl _)

/-- C15 fails: for the single tetrahedron (0,0,0), (1,0,0), (0,1,0), (1,1,1) all
four diagonal Gram entries are strictly positive and the flip is applied, yet the
returned row has the negative entries -1/6 in columns 0 and 3. -/
theorem C15_counterexample :
    (0 < Kj (⟨0, 0, 0⟩ : Vec3 ℚ) ⟨1, 0, 0⟩ ⟨0, 1, 0⟩ ⟨1, 1, 1⟩ 0 0 ∧
      0 < Kj (⟨0, 0, 0⟩ : Vec3 ℚ) ⟨1, 0, 0⟩ ⟨0, 1, 0⟩ ⟨1, 1, 1⟩ 1 1 ∧
      0 < Kj (⟨0, 0, 0⟩ : Vec3 ℚ) ⟨1, 0, 0⟩ ⟨0, 1, 0⟩ ⟨1, 1, 1⟩ 2 2 ∧
      0 < Kj (⟨0, 0, 0⟩ : Vec3 ℚ) ⟨1, 0, 0⟩ ⟨0, 1, 0⟩ ⟨1, 1, 1⟩ 3 3) ∧
    cotangent (fun x : ℚ => x) [⟨0, 0, 0⟩, ⟨1, 0, 0⟩, ⟨0, 1, 0⟩, ⟨1, 1, 1⟩]
        ⟨4, [[0, 1, 2, 3]]⟩ ⟨0, 0, []⟩ =
      .returned ⟨1, 6, [[-1/6, 1/3, 1/3, -1/6, 1/6, 1/6]]⟩ true ∧
    ¬ (0 : ℚ) < -1/6 := by
  refine ⟨⟨?_, ?_, ?_, ?_⟩, ?_, by norm_num⟩
  · norm_num [Kj, EjTEj, Ej, volume, rhs, JTj, Mat3.determinant, Mat3.inverse, Mat3.mulVec,
      Vec3.sub, Vec3.dot]
  · norm_num [Kj, EjTEj, Ej, volume, rhs, JTj, Mat3.determinant, Mat3.inverse, Mat3.mulVec,
      Vec3.sub, Vec3.dot]
  · norm_num [Kj, EjTEj, Ej, volume, rhs, JTj, Mat3.determinant, Mat3.inverse, Mat3.mulVec,
      Vec3.sub, Vec3.dot]
  · norm_num [Kj, EjTEj, Ej, volume, rhs, JTj, Mat3.determinant, Mat3.inverse, Mat3.mulVec,
      Vec3.sub, Vec3.dot]
  · norm_num [cotangent, MatF.rows, tetLoop, tetElement, readTet, negate, diagPos, tetRow, Kj,
      EjTEj, Ej, volume, rhs, JTj, Mat3.determinant, Mat3.inverse, Mat3.mulVec, Vec3.sub,
      Vec3.dot]

/-- C15 as amended: whenever the flip is applied, that is for every valid batch
of tetrahedra whose diagonal Gram entries are all strictly positive, every entry
of the returned array is the negated off-diagonal Gram entry -K(x,y), and such an
entry is strictly positive exactly when the columns x and y of E have a negative
dot product; it is zero or negative otherwise. -/
theorem C15_flipped_entry_sign (sqrt : α → α) (V : List (Vec3 α)) (F : MatF) (C0 : MatC α)
    (hc : F.cols = 4) (hv : F.Valid V)
    (hpos : ∀ r ∈ F.data, ∀ pa pb pc pd, readTet V r = some (pa, pb, pc, pd) →
      0 < Kj pa pb pc pd 0 0 ∧ 0 < Kj pa pb pc pd 1 1 ∧ 0 < Kj pa pb pc pd 2 2 ∧
        0 < Kj pa pb pc pd 3 3) :
    ∃ C, cotangent sqrt V F C0 = .returned C true ∧
      ∀ (j : Nat) r pa pb pc pd, F.data[j]? = some r → readTet V r = some (pa, pb, pc, pd) →
        C.data[j]? = some [-Kj pa pb pc pd 1 2, -Kj pa pb pc pd 2 0, -Kj pa pb pc pd 0 1,
          -Kj pa pb pc pd 3 0, -Kj pa pb pc pd 3 1, -Kj pa pb pc pd 3 2] ∧
        ∀ x y : Fin 4,
          (0 < -Kj pa pb pc pd x y ↔ (Ej pa pb pc pd x).dot (Ej pa pb pc pd y) < 0) := by
  obtain ⟨flag, rows, hret, -, hrows, hflag⟩ := cotangent_tet_rows sqrt V F C0 hc hv
  have hf : flag = true :=
    hflag.2 (fun r hr pa pb pc pd hread =>
      (diagPos_iff pa pb pc pd).2 (hpos r hr pa pb pc pd hread))
  subst hf
  refine ⟨_, hret, ?_⟩
  intro j r pa pb pc pd hj hr
  constructor
  · simp only [if_true]
    rw [negate_getElem? rows j _ (hrows j r pa pb pc pd hj hr), tetRow]
    simp
  · intro x y
    have hvol := volume_pos_of_diag pa pb pc pd 0
      (hpos r (List.getElem?_mem hj) pa pb pc pd hr).1
    rw [Kj, EjTEj, neg_pos]
    constructor
    · intro h
      by_contra hge
      have : 0 ≤ (Ej pa pb pc pd x).dot (Ej pa pb pc pd y) * volume pa pb pc pd :=
        mul_nonneg (not_lt.1 hge) hvol.le
      exact absurd h (not_lt.2 this)
    · intro h
      exact mul_neg_of_neg_of_pos h hvol

end flippedSign

section flippedSignWitness

/-- The tetrahedron (0,0,0), (1,0,0), (0,1,0), (1,1,1): the flip is applied and
the entry of column 0 is positive exactly when columns 1 and 2 of E have a
negative dot product. -/
theorem C15_flipped_entry_sign_witness :
    (⟨4, [[0, 1, 2, 3]]⟩ : MatF).cols = 4 ∧
    (⟨4, [[0, 1, 2, 3]]⟩ : MatF).Valid
      ([⟨0, 0, 0⟩, ⟨1, 0, 0⟩, ⟨0, 1, 0⟩, ⟨1, 1, 1⟩] : List (Vec3 ℚ)) ∧
    (0 < Kj (⟨0, 0, 0⟩ : Vec3 ℚ) ⟨1, 0, 0⟩ ⟨0, 1, 0⟩ ⟨1, 1, 1⟩ 0 0 ∧
      0 < Kj (⟨0, 0, 0⟩ : Vec3 ℚ) ⟨1, 0, 0⟩ ⟨0, 1, 0⟩ ⟨1, 1, 1⟩ 1 1 ∧
      0 < Kj (⟨0, 0, 0⟩ : Vec3 ℚ) ⟨1, 0, 0⟩ ⟨0, 1, 0⟩ ⟨1, 1, 1⟩ 2 2 ∧
      0 < Kj (⟨0, 0, 0⟩ : Vec3 ℚ) ⟨1, 0, 0⟩ ⟨0, 1, 0⟩ ⟨1, 1, 1⟩ 3 3) ∧
    ∃ C, cotangent (fun x : ℚ => x) [⟨0, 0, 0⟩, ⟨1, 0, 0⟩, ⟨0, 1, 0⟩, ⟨1, 1, 1⟩]
        ⟨4, [[0, 1, 2, 3]]⟩ ⟨0, 0, []⟩ = .returned C true ∧
      (0 < -Kj (⟨0, 0, 0⟩ : Vec3 ℚ) ⟨1, 0, 0⟩ ⟨0, 1, 0⟩ ⟨1, 1, 1⟩ 1 2 ↔
        (Ej (⟨0, 0, 0⟩ : Vec3 ℚ) ⟨1, 0, 0⟩ ⟨0, 1, 0⟩ ⟨1, 1, 1⟩ 1).dot
          (Ej (⟨0, 0, 0⟩ : Vec3 ℚ) ⟨1, 0, 0⟩ ⟨0, 1, 0⟩ ⟨1, 1, 1⟩ 2) < 0) := by
  have hd : 0 < Kj (⟨0, 0, 0⟩ : Vec3 ℚ) ⟨1, 0, 0⟩ ⟨0, 1, 0⟩ ⟨1, 1, 1⟩ 0 0 ∧
      0 < Kj (⟨0, 0, 0⟩ : Vec3 ℚ) ⟨1, 0, 0⟩ ⟨0, 1, 0⟩ ⟨1, 1, 1⟩ 1 1 ∧
      0 < Kj (⟨0, 0, 0⟩ : Vec3 ℚ) ⟨1, 0, 0⟩ ⟨0, 1, 0⟩ ⟨1, 1, 1⟩ 2 2 ∧
      0 < Kj (⟨0, 0, 0⟩ : Vec3 ℚ) ⟨1, 0, 0⟩ ⟨0, 1, 0⟩ ⟨1, 1, 1⟩ 3 3 := by
    refine ⟨?_, ?_, ?_, ?_⟩ <;>
      norm_num [Kj, EjTEj, Ej, volume, rhs, JTj, Mat3.determinant, Mat3.inverse, Mat3.mulVec,
        Vec3.sub, Vec3.dot]
  refine ⟨rfl, by simp [MatF.Valid], hd, ?_⟩
  obtain ⟨C, hret, hrows⟩ :=
    C15_flipped_entry_sign (fun x : ℚ => x) [⟨0, 0, 0⟩, ⟨1, 0, 0⟩, ⟨0, 1, 0⟩, ⟨1, 1, 1⟩]
      ⟨4, [[0, 1, 2, 3]]⟩ ⟨0, 0, []⟩ rfl (by simp [MatF.Valid])
      (by
        intro r hr pa pb pc pd hread
        simp only [List.mem_singleton] at hr
        subst hr
        simp only [readTet, List.getElem?_cons_succ, List.getElem?_cons_zero, Option.bind_eq_bind,
          Option.some_bind, Option.pure_def, Option.some.injEq, Prod.mk.injEq] at hread
        obtain ⟨rfl, rfl, rfl, rfl⟩ := hread
        exact hd)
  exact ⟨C, hret, (hrows 0 [0, 1, 2, 3] _ _ _ _ rfl rfl).2 1 2⟩

end flippedSignWitness

/-! ## Non-degenerate batches are always flipped -/

section alwaysFlipped

variable {α : Type} [LinearOrderedField α]

/-- C16: for every valid batch of tetrahedra (the empty batch included) in which
every element has a non-zero determinant, whatever its sign, all four diagonal
Gram entries of every element are strictly positive, the flip is applied and
every output row is the negation of the element's six off-diagonal Gram entries;
and whenever the flip is not applied some element has determinant zero. -/
theorem C16_nondegenerate_always_flipped (sqrt : α → α) (V : List (Vec3 α)) (F : MatF)
    (C0 : MatC α) (hc : F.cols = 4) (hv : F.Valid V) :
    ((∀ r ∈ F.data, ∀ pa pb pc pd, readTet V r = some (pa, pb, pc, pd) →
        (JTj pa pb pc pd).determinant ≠ 0) →
      (∀ r ∈ F.data, ∀ pa pb pc pd, readTet V r = some (pa, pb, pc, pd) →
        0 < Kj pa pb pc pd 0 0 ∧ 0 < Kj pa pb pc pd 1 1 ∧ 0 < Kj pa pb pc pd 2 2 ∧
          0 < Kj pa pb pc pd 3 3) ∧
      ∃ C, cotangent sqrt V F C0 = .returned C true ∧
        ∀ (j : Nat) r pa pb pc pd, F.data[j]? = some r →
          readTet V r = some (pa, pb, pc, pd) →
          C.data[j]? = some [-Kj pa pb pc pd 1 2, -Kj pa pb pc pd 2 0, -Kj pa pb pc pd 0 1,
            -Kj pa pb pc pd 3 0, -Kj pa pb pc pd 3 1, -Kj pa pb pc pd 3 2]) ∧
    (∀ C, cotangent sqrt V F C0 = .returned C false →
      ∃ r ∈ F.data, ∃ pa pb pc pd, readTet V r = some (pa, pb, pc, pd) ∧
        (JTj pa pb pc pd).determinant = 0) := by
  obtain ⟨flag, rows, hret, -, hrows, hflag⟩ := cotangent_tet_rows sqrt V F C0 hc hv
  constructor
  · intro hnd
    refine ⟨fun r hr pa pb pc pd hread =>
      ⟨Kj_diag_pos pa pb pc pd (hnd r hr pa pb pc pd hread) 0,
        Kj_diag_pos pa pb pc pd (hnd r hr pa pb pc pd hread) 1,
        Kj_diag_pos pa pb pc pd (hnd r hr pa pb pc pd hread) 2,
        Kj_diag_pos pa pb pc pd (hnd r hr pa pb pc pd hread) 3⟩, ?_⟩
    have hf : flag = true :=
      hflag.2 (fun r hr pa pb pc pd hread =>
        diagPos_of_det_ne_zero pa pb pc pd (hnd r hr pa pb pc pd hread))
    subst hf
    refine ⟨_, hret, ?_⟩
    intro j r pa pb pc pd hj hr
    simp only [if_true]
    rw [negate_getElem? rows j _ (hrows j r pa pb pc pd hj hr), tetRow]
    simp
  · intro C hC
    rw [hret] at hC
    have hf : flag = false := by
      cases flag with
      | false => rfl
      | true => simp at hC
    by_contra hno
    have hall : ∀ r ∈ F.data, ∀ pa pb pc pd, readTet V r = some (pa, pb, pc, pd) →
        diagPos pa pb pc pd = true := by
      intro r hr pa pb pc pd hread
      apply diagPos_of_det_ne_zero
      intro hdet
      exact hno ⟨r, hr, pa, pb, pc, pd, hread, hdet⟩
    rw [hflag.2 hall] at hf
    exact absurd hf (by decide)

/-- A tetrahedron and its mirror image, of determinants 1 and -1: both rows are
flipped. -/
theorem C16_nondegenerate_always_flipped_witness :
    (⟨4, [[1, 0, 2, 3], [0, 1, 2, 3]]⟩ : MatF).cols = 4 ∧
    (⟨4, [[1, 0, 2, 3], [0, 1, 2, 3]]⟩ : MatF).Valid
      ([⟨0, 0, 0⟩, ⟨1, 0, 0⟩, ⟨0, 1, 0⟩, ⟨0, 0, 1⟩] : List (Vec3 ℚ)) ∧
    (JTj (⟨1, 0, 0⟩ : Vec3 ℚ) ⟨0, 0, 0⟩ ⟨0, 1, 0⟩ ⟨0, 0, 1⟩).determinant ≠ 0 ∧
    (JTj (⟨0, 0, 0⟩ : Vec3 ℚ) ⟨1, 0, 0⟩ ⟨0, 1, 0⟩ ⟨0, 0, 1⟩).determinant ≠ 0 ∧
    ∃ C, cotangent (fun x : ℚ => x) [⟨0, 0, 0⟩, ⟨1, 0, 0⟩, ⟨0, 1, 0⟩, ⟨0, 0, 1⟩]
        ⟨4, [[1, 0, 2, 3], [0, 1, 2, 3]]⟩ ⟨0, 0, []⟩ = .returned C true ∧
      C.data[1]? = some [-Kj (⟨0, 0, 0⟩ : Vec3 ℚ) ⟨1, 0, 0⟩ ⟨0, 1, 0⟩ ⟨0, 0, 1⟩ 1 2,
        -Kj (⟨0, 0, 0⟩ : Vec3 ℚ) ⟨1, 0, 0⟩ ⟨0, 1, 0⟩ ⟨0, 0, 1⟩ 2 0,
        -Kj (⟨0, 0, 0⟩ : Vec3 ℚ) ⟨1, 0, 0⟩ ⟨0, 1, 0⟩ ⟨0, 0, 1⟩ 0 1,
        -Kj (⟨0, 0, 0⟩ : Vec3 ℚ) ⟨1, 0, 0⟩ ⟨0, 1, 0⟩ ⟨0, 0, 1⟩ 3 0,
        -Kj (⟨0, 0, 0⟩ : Vec3 ℚ) ⟨1, 0, 0⟩ ⟨0, 1, 0⟩ ⟨0, 0, 1⟩ 3 1,
        -Kj (⟨0, 0, 0⟩ : Vec3 ℚ) ⟨1, 0, 0⟩ ⟨0, 1, 0⟩ ⟨0, 0, 1⟩ 3 2] := by
  have h0 : (JTj (⟨1, 0, 0⟩ : Vec3 ℚ) ⟨0, 0, 0⟩ ⟨0, 1, 0⟩ ⟨0, 0, 1⟩).determinant ≠ 0 := by
    norm_num [JTj, Mat3.determinant, Vec3.sub]
  have h1 : (JTj (⟨0, 0, 0⟩ : Vec3 ℚ) ⟨1, 0, 0⟩ ⟨0, 1, 0⟩ ⟨0, 0, 1⟩).determinant ≠ 0 := by
    norm_num [JTj, Mat3.determinant, Vec3.sub]
  refine ⟨rfl, by simp [MatF.Valid], h0, h1, ?_⟩
  obtain ⟨-, C, hret, hrows⟩ :=
    (C16_nondegenerate_always_flipped (fun x : ℚ => x)
      [⟨0, 0, 0⟩, ⟨1, 0, 0⟩, ⟨0, 1, 0⟩, ⟨0, 0, 1⟩] ⟨4, [[1, 0, 2, 3], [0, 1, 2, 3]]⟩ ⟨0, 0, []⟩
      rfl (by simp [MatF.Valid])).1
      (by
        intro r hr pa pb pc pd hread
        simp only [List.mem_cons, List.mem_singleton, List.not_mem_nil, or_false] at hr
        rcases hr with rfl | rfl
        · simp only [readTet, List.getElem?_cons_succ, List.getElem?_cons_zero,
            Option.bind_eq_bind, Option.some_bind, Option.pure_def, Option.some.injEq,
            Prod.mk.injEq] at hread
          obtain ⟨rfl, rfl, rfl, rfl⟩ := hread
          exact h0
        · simp only [readTet, List.getElem?_cons_succ, List.getElem?_cons_zero,
            Option.bind_eq_bind, Option.some_bind, Option.pure_def, Option.some.injEq,
            Prod.mk.injEq] at hread
          obtain ⟨rfl, rfl, rfl, rfl⟩ := hread
          exact h1)
  exact ⟨C, hret, hrows 1 [0, 1, 2, 3] _ _ _ _ rfl rfl⟩

end alwaysFlipped

/-! ## The rows of the Gram matrix sum to zero -/

section rowSums

variable {α : Type} [LinearOrderedField α]

/-- Every row of `Kj` sums to zero, because the columns of `rhs` sum to zero. -/
theorem Kj_row_sum (pa pb pc pd : Vec3 α) (i : Fin 4) :
    Kj pa pb pc pd i 0 + Kj pa pb pc pd i 1 + Kj pa pb pc pd i 2 + Kj pa pb pc pd i 3 = 0 := by
  have key : ∀ X : Vec3 α, X.dot (Ej pa pb pc pd 0) + X.dot (Ej pa pb pc pd 1) +
      X.dot (Ej pa pb pc pd 2) + X.dot (Ej pa pb pc pd 3) = 0 := by
    intro X
    rw [Ej_three]
    generalize Ej pa pb pc pd 0 = e0
    generalize Ej pa pb pc pd 1 = e1
    generalize Ej pa pb pc pd 2 = e2
    simp only [Vec3.dot, Vec3.smul, Vec3.add]
    ring
  simp only [Kj, EjTEj]
  linear_combination volume pa pb pc pd * key (Ej pa pb pc pd i)

theorem Kj_symm (pa pb pc pd : Vec3 α) (x y : Fin 4) :
    Kj pa pb pc pd x y = Kj pa pb pc pd y x := by
  simp only [Kj, EjTEj, Vec3.dot_comm]

/-- The six entries written to a row sum to minus half the trace of `Kj`. -/
theorem tetRow_sum (pa pb pc pd : Vec3 α) :
    (tetRow pa pb pc pd).sum =
      -((Kj pa pb pc pd 0 0 + Kj pa pb pc pd 1 1 + Kj pa pb pc pd 2 2 + Kj pa pb pc pd 3 3)
        / 2) := by
  have r0 := Kj_row_sum pa pb pc pd 0
  have r1 := Kj_row_sum pa pb pc pd 1
  have r2 := Kj_row_sum pa pb pc pd 2
  have r3 := Kj_row_sum pa pb pc pd 3
  have s02 := Kj_symm pa pb pc pd 0 2
  have s03 := Kj_symm pa pb pc pd 0 3
  have s13 := Kj_symm pa pb pc pd 1 3
  have s23 := Kj_symm pa pb pc pd 2 3
  have s10 := Kj_symm pa pb pc pd 1 0
  have s21 := Kj_symm pa pb pc pd 2 1
  simp only [tetRow, List.sum_cons, List.sum_nil, add_zero]
  linear_combination (1 / 2) * (r0 + r1 + r2 + r3)
    - (1 / 2) * (s02 + s03 + s13 + s23 + s10 + s21)

/-- C17: for every tetrahedron each row of the Gram matrix K sums to zero, so the
six unflipped edge weights sum to minus half the trace of K; and for every valid
batch of non-degenerate tetrahedra the call returns flipped and the six output
weights of each row sum to half the trace of that element's K, which is strictly
positive. -/
theorem C17_row_sum_half_trace (sqrt : α → α) (V : List (Vec3 α)) (F : MatF) (C0 : MatC α)
    (hc : F.cols = 4) (hv : F.Valid V) :
    (∀ (pa pb pc pd : Vec3 α) (i : Fin 4),
      Kj pa pb pc pd i 0 + Kj pa pb pc pd i 1 + Kj pa pb pc pd i 2 + Kj pa pb pc pd i 3 = 0) ∧
    (∀ pa pb pc pd : Vec3 α,
      (tetRow pa pb pc pd).sum =
        -((Kj pa pb pc pd 0 0 + Kj pa pb pc pd 1 1 + Kj pa pb pc pd 2 2 + Kj pa pb pc pd 3 3)
          / 2)) ∧
    ((∀ r ∈ F.data, ∀ pa pb pc pd, readTet V r = some (pa, pb, pc, pd) →
        (JTj pa pb pc pd).determinant ≠ 0) →
      ∃ C, cotangent sqrt V F C0 = .returned C true ∧
        ∀ (j : Nat) r pa pb pc pd, F.data[j]? = some r →
          readTet V r = some (pa, pb, pc, pd) →
          ∃ row, C.data[j]? = some row ∧
            row.sum = (Kj pa pb pc pd 0 0 + Kj pa pb pc pd 1 1 + Kj pa pb pc pd 2 2
              + Kj pa pb pc pd 3 3) / 2 ∧
            0 < (Kj pa pb pc pd 0 0 + Kj pa pb pc pd 1 1 + Kj pa pb pc pd 2 2
              + Kj pa pb pc pd 3 3) / 2) := by
  refine ⟨Kj_row_sum, tetRow_sum, ?_⟩
  intro hnd
  obtain ⟨flag, rows, hret, -, hrows, hflag⟩ := cotangent_tet_rows sqrt V F C0 hc hv
  have hf : flag = true :=
    hflag.2 (fun r hr pa pb pc pd hread =>
      diagPos_of_det_ne_zero pa pb pc pd (hnd r hr pa pb pc pd hread))
  subst hf
  refine ⟨_, hret, ?_⟩
  intro j r pa pb pc pd hj hr
  have hdet := hnd r (List.getElem?_mem hj) pa pb pc pd hr
  refine ⟨_, negate_getElem? rows j _ (hrows j r pa pb pc pd hj hr), ?_, ?_⟩
  · have hs := tetRow_sum pa pb pc pd
    simp only [tetRow, List.sum_cons, List.sum_nil, add_zero, List.map_cons, List.map_nil]
      at hs ⊢
    linear_combination -hs
  · have h0 := Kj_diag_pos pa pb pc pd hdet 0
    have h1 := Kj_diag_pos pa pb pc pd hdet 1
    have h2 := Kj_diag_pos pa pb pc pd hdet 2
    have h3 := Kj_diag_pos pa pb pc pd hdet 3
    linarith

end rowSums

section rowSumsWitness

/-- The single tetrahedron (0,0,0), (1,0,0), (0,1,0), (0,0,1), of determinant -1:
its output row sums to half the trace of its Gram matrix. -/
theorem C17_row_sum_half_trace_witness :
    (⟨4, [[0, 1, 2, 3]]⟩ : MatF).cols = 4 ∧
    (⟨4, [[0, 1, 2, 3]]⟩ : MatF).Valid
      ([⟨0, 0, 0⟩, ⟨1, 0, 0⟩, ⟨0, 1, 0⟩, ⟨0, 0, 1⟩] : List (Vec3 ℚ)) ∧
    (JTj (⟨0, 0, 0⟩ : Vec3 ℚ) ⟨1, 0, 0⟩ ⟨0, 1, 0⟩ ⟨0, 0, 1⟩).determinant ≠ 0 ∧
    ∃ C row, cotangent (fun x : ℚ => x) [⟨0, 0, 0⟩, ⟨1, 0, 0⟩, ⟨0, 1, 0⟩, ⟨0, 0, 1⟩]
        ⟨4, [[0, 1, 2, 3]]⟩ ⟨0, 0, []⟩ = .returned C true ∧
      C.data[0]? = some row ∧
      row.sum = (Kj (⟨0, 0, 0⟩ : Vec3 ℚ) ⟨1, 0, 0⟩ ⟨0, 1, 0⟩ ⟨0, 0, 1⟩ 0 0
        + Kj (⟨0, 0, 0⟩ : Vec3 ℚ) ⟨1, 0, 0⟩ ⟨0, 1, 0⟩ ⟨0, 0, 1⟩ 1 1
        + Kj (⟨0, 0, 0⟩ : Vec3 ℚ) ⟨1, 0, 0⟩ ⟨0, 1, 0⟩ ⟨0, 0, 1⟩ 2 2
        + Kj (⟨0, 0, 0⟩ : Vec3 ℚ) ⟨1, 0, 0⟩ ⟨0, 1, 0⟩ ⟨0, 0, 1⟩ 3 3) / 2 ∧
      0 < (Kj (⟨0, 0, 0⟩ : Vec3 ℚ) ⟨1, 0, 0⟩ ⟨0, 1, 0⟩ ⟨0, 0, 1⟩ 0 0
        + Kj (⟨0, 0, 0⟩ : Vec3 ℚ) ⟨1, 0, 0⟩ ⟨0, 1, 0⟩ ⟨0, 0, 1⟩ 1 1
        + Kj (⟨0, 0, 0⟩ : Vec3 ℚ) ⟨1, 0, 0⟩ ⟨0, 1, 0⟩ ⟨0, 0, 1⟩ 2 2
        + Kj (⟨0, 0, 0⟩ : Vec3 ℚ) ⟨1, 0, 0⟩ ⟨0, 1, 0⟩ ⟨0, 0, 1⟩ 3 3) / 2 := by
  have h1 : (JTj (⟨0, 0, 0⟩ : Vec3 ℚ) ⟨1, 0, 0⟩ ⟨0, 1, 0⟩ ⟨0, 0, 1⟩).determinant ≠ 0 := by
    norm_num [JTj, Mat3.determinant, Vec3.sub]
  refine ⟨rfl, by simp [MatF.Valid], h1, ?_⟩
  obtain ⟨C, hret, hrows⟩ :=
    (C17_row_sum_half_trace (fun x : ℚ => x)
      [⟨0, 0, 0⟩, ⟨1, 0, 0⟩, ⟨0, 1, 0⟩, ⟨0, 0, 1⟩] ⟨4, [[0, 1, 2, 3]]⟩ ⟨0, 0, []⟩
      rfl (by simp [MatF.Valid])).2.2
      (by
        intro r hr pa pb pc pd hread
        simp only [List.mem_singleton] at hr
        subst hr
        simp only [readTet, List.getElem?_cons_succ, List.getElem?_cons_zero,
          Option.bind_eq_bind, Option.some_bind, Option.pure_def, Option.some.injEq,
          Prod.mk.injEq] at hread
        obtain ⟨rfl, rfl, rfl, rfl⟩ := hread
        exact h1)
  obtain ⟨row, hrow, hsum, hpos⟩ := hrows 0 [0, 1, 2, 3] _ _ _ _ rfl rfl
  exact ⟨C, row, hret, hrow, hsum, hpos⟩

end rowSumsWitness

/-! ## Scaling a tetrahedron batch -/

section tetScaling

variable {α : Type} [LinearOrderedField α]

theorem Vec3.smul_sub (k : α) (p q : Vec3 α) :
    (Vec3.smul k p).sub (Vec3.smul k q) = Vec3.smul k (p.sub q) := by
  simp only [Vec3.smul, Vec3.sub, Vec3.mk.injEq]
  refine ⟨?_, ?_, ?_⟩ <;> ring

theorem Vec3.cross_smul_smul (a b : α) (p q : Vec3 α) :
    (Vec3.smul a p).cross (Vec3.smul b q) = Vec3.smul (a * b) (p.cross q) := by
  simp only [Vec3.smul, Vec3.cross, Vec3.mk.injEq]
  refine ⟨?_, ?_, ?_⟩ <;> ring

theorem Vec3.smul_smul (a b : α) (p : Vec3 α) :
    Vec3.smul a (Vec3.smul b p) = Vec3.smul (a * b) p := by
  simp only [Vec3.smul, Vec3.mk.injEq]
  refine ⟨?_, ?_, ?_⟩ <;> ring

theorem Vec3.smul_add (a : α) (p q : Vec3 α) :
    (Vec3.smul a p).add (Vec3.smul a q) = Vec3.smul a (p.add q) := by
  simp only [Vec3.smul, Vec3.add, Vec3.mk.injEq]
  refine ⟨?_, ?_, ?_⟩ <;> ring

/-- Scaling the four points by `k` scales the determinant by `k ^ 3`. -/
theorem JTj_determinant_smul (k : α) (pa pb pc pd : Vec3 α) :
    (JTj (Vec3.smul k pa) (Vec3.smul k pb) (Vec3.smul k pc) (Vec3.smul k pd)).determinant =
      k ^ 3 * (JTj pa pb pc pd).determinant := by
  simp only [JTj, Vec3.smul_sub]
  generalize pa.sub pd = u
  generalize pb.sub pd = v
  generalize pc.sub pd = w
  simp only [Mat3.determinant, Vec3.smul]
  ring

/-- Scaling the four points by `k ≠ 0` scales every column of `Ej` by `1 / k`. -/
theorem Ej_smul (k : α) (hk : k ≠ 0) (pa pb pc pd : Vec3 α) (i : Fin 4) :
    Ej (Vec3.smul k pa) (Vec3.smul k pb) (Vec3.smul k pc) (Vec3.smul k pd) i =
      Vec3.smul (1 / k) (Ej pa pb pc pd i) := by
  obtain ⟨h0, h1, h2, h3⟩ := Ej_columns pa pb pc pd
  obtain ⟨g0, g1, g2, g3⟩ :=
    Ej_columns (Vec3.smul k pa) (Vec3.smul k pb) (Vec3.smul k pc) (Vec3.smul k pd)
  have hcoef : 1 / (k ^ 3 * (JTj pa pb pc pd).determinant) * (k * k) =
      1 / k * (1 / (JTj pa pb pc pd).determinant) := by
    by_cases hd : (JTj pa pb pc pd).determinant = 0
    · simp [hd]
    · field_simp
      ring
  have hcoef' : -(1 / (k ^ 3 * (JTj pa pb pc pd).determinant)) * (k * k) =
      1 / k * -(1 / (JTj pa pb pc pd).determinant) := by
    linear_combination -hcoef
  fin_cases i
  · show Ej _ _ _ _ 0 = Vec3.smul (1 / k) (Ej pa pb pc pd 0)
    rw [g0, h0, JTj_determinant_smul, Vec3.smul_sub, Vec3.smul_sub, Vec3.cross_smul_smul,
      Vec3.smul_smul, Vec3.smul_smul, hcoef]
  · show Ej _ _ _ _ 1 = Vec3.smul (1 / k) (Ej pa pb pc pd 1)
    rw [g1, h1, JTj_determinant_smul, Vec3.smul_sub, Vec3.smul_sub, Vec3.cross_smul_smul,
      Vec3.smul_smul, Vec3.smul_smul, hcoef]
  · show Ej _ _ _ _ 2 = Vec3.smul (1 / k) (Ej pa pb pc pd 2)
    rw [g2, h2, JTj_determinant_smul, Vec3.smul_sub, Vec3.smul_sub, Vec3.cross_smul_smul,
      Vec3.smul_smul, Vec3.smul_smul, hcoef]
  · show Ej _ _ _ _ 3 = Vec3.smul (1 / k) (Ej pa pb pc pd 3)
    rw [g3, h3, JTj_determinant_smul, Vec3.smul_sub, Vec3.smul_sub, Vec3.smul_sub,
      Vec3.cross_smul_smul, Vec3.cross_smul_smul, Vec3.cross_smul_smul, Vec3.smul_add,
      Vec3.smul_add, Vec3.smul_smul, Vec3.smul_smul, hcoef']

/-- Scaling the four points by `k ≠ 0` scales every entry of `Kj` by `|k|`. -/
theorem Kj_smul (k : α) (hk : k ≠ 0) (pa pb pc pd : Vec3 α) (x y : Fin 4) :
    Kj (Vec3.smul k pa) (Vec3.smul k pb) (Vec3.smul k pc) (Vec3.smul k pd) x y =
      |k| * Kj pa pb pc pd x y := by
  have h1 : |k| ^ 3 = |k| * k ^ 2 := by
    rw [← sq_abs k]; ring
  have h2 : 1 / k * (1 / k) * k ^ 2 = 1 := by
    field_simp
    ring
  simp only [Kj, EjTEj, volume, Ej_smul k hk, Vec3.dot_smul_smul, JTj_determinant_smul,
    abs_mul, abs_pow, h1]
  linear_combination
    (|k| * (Ej pa pb pc pd x).dot (Ej pa pb pc pd y) * |(JTj pa pb pc pd).determinant| / 6) * h2

theorem diagPos_smul (k : α) (hk : k ≠ 0) (pa pb pc pd : Vec3 α) :
    diagPos (Vec3.smul k pa) (Vec3.smul k pb) (Vec3.smul k pc) (Vec3.smul k pd) =
      diagPos pa pb pc pd := by
  have hpos : 0 < |k| := abs_pos.2 hk
  rw [Bool.eq_iff_iff, diagPos_iff, diagPos_iff]
  simp only [Kj_smul k hk, mul_pos_iff_of_pos_left hpos]

theorem tetRow_smul (k : α) (hk : k ≠ 0) (pa pb pc pd : Vec3 α) :
    tetRow (Vec3.smul k pa) (Vec3.smul k pb) (Vec3.smul k pc) (Vec3.smul k pd) =
      (tetRow pa pb pc pd).map (fun c => |k| * c) := by
  simp only [tetRow, Kj_smul k hk, List.map_cons, List.map_nil]

theorem readTet_map {β : Type} (f : Vec3 β → Vec3 β) (V : List (Vec3 β)) (r : List Nat)
    (pa pb pc pd : Vec3 β) (h : readTet V r = some (pa, pb, pc, pd)) :
    readTet (V.map f) r = some (f pa, f pb, f pc, f pd) := by
  rw [readTet_eq_some_iff] at h ⊢
  obtain ⟨a, b, c, d, ha, hb, hc, hd, wa, wb, wc, wd⟩ := h
  exact ⟨a, b, c, d, ha, hb, hc, hd, by simp [List.getElem?_map, wa],
    by simp [List.getElem?_map, wb], by simp [List.getElem?_map, wc],
    by simp [List.getElem?_map, wd]⟩

/-- The loop body on the scaled vertex array: same check, row scaled by `|k|`. -/
theorem tetElement_smul (k : α) (hk : k ≠ 0) (V : List (Vec3 α)) (r : List Nat)
    (pr : Bool × List α) (h : tetElement V r = some pr) :
    tetElement (V.map (Vec3.smul k)) r = some (pr.1, pr.2.map (fun c => |k| * c)) := by
  unfold tetElement at h
  cases hr : readTet V r with
  | none => simp [hr] at h
  | some p =>
    obtain ⟨pa, pb, pc, pd⟩ := p
    simp only [hr, Option.some.injEq] at h
    subst h
    rw [tetElement_of_read _ r _ _ _ _ (readTet_map (Vec3.smul k) V r pa pb pc pd hr),
      diagPos_smul k hk, tetRow_smul k hk]

theorem negate_map_scale (c0 : α) (rows : List (List α)) :
    negate (rows.map (fun row => row.map (fun c => c0 * c))) =
      (negate rows).map (fun row => row.map (fun c => c0 * c)) := by
  simp only [negate, List.map_map]
  congr 1
  funext row
  simp only [Function.comp, List.map_map]
  congr 1
  funext c
  simp only [Function.comp]
  ring

/-- C18: tetrahedron weights scale linearly. For every valid batch of tetrahedra
and every k ≠ 0, multiplying all vertex coordinates by k leaves the flip decision
unchanged and multiplies every entry of the output by |k|. -/
theorem C18_tet_scaling (sqrt : α → α) (V : List (Vec3 α)) (F : MatF) (C0 : MatC α) (k : α)
    (hk : k ≠ 0) (hc : F.cols = 4) (hv : F.Valid V) :
    ∃ C flipped, cotangent sqrt V F C0 = .returned C flipped ∧
      cotangent sqrt (V.map (Vec3.smul k)) F C0 =
        .returned ⟨C.rows, C.cols, C.data.map (fun row => row.map (fun c => |k| * c))⟩
          flipped := by
  obtain ⟨prs, hf, hl⟩ := tetLoop_of_valid V F hc hv
  have hf' : List.Forall₂ (fun r pr => tetElement (V.map (Vec3.smul k)) r = some pr) F.data
      (prs.map (fun pr => (pr.1, pr.2.map (fun c => |k| * c)))) := by
    rw [List.forall₂_map_right_iff]
    exact hf.imp (fun r pr h => tetElement_smul k hk V r pr h)
  have hl' : tetLoop (V.map (Vec3.smul k)) F.data true [] =
      some (prs.all (fun pr => pr.1),
        (prs.map (fun pr => pr.2)).map (fun row => row.map (fun c => |k| * c))) := by
    rw [tetLoop_eq_some_iff]
    refine ⟨_, hf', ?_⟩
    simp only [Bool.true_and, List.nil_append, List.all_map, List.map_map]
    rfl
  refine ⟨_, _, cotangent_of_tetLoop sqrt V F C0 hc _ _ hl, ?_⟩
  rw [cotangent_of_tetLoop sqrt (V.map (Vec3.smul k)) F C0 hc _ _ hl']
  cases prs.all (fun pr => pr.1)
  · simp
  · simp only [if_true, negate_map_scale]

/-- Scaling a tetrahedron by -2 doubles its weights. -/
theorem C18_tet_scaling_witness :
    (-2 : ℚ) ≠ 0 ∧ (⟨4, [[0, 1, 2, 3]]⟩ : MatF).cols = 4 ∧
    (⟨4, [[0, 1, 2, 3]]⟩ : MatF).Valid
      ([⟨0, 0, 0⟩, ⟨1, 0, 0⟩, ⟨0, 1, 0⟩, ⟨1, 1, 1⟩] : List (Vec3 ℚ)) ∧
    ∃ C flipped,
      cotangent (fun x : ℚ => x) [⟨0, 0, 0⟩, ⟨1, 0, 0⟩, ⟨0, 1, 0⟩, ⟨1, 1, 1⟩]
        ⟨4, [[0, 1, 2, 3]]⟩ ⟨0, 0, []⟩ = .returned C flipped ∧
      cotangent (fun x : ℚ => x)
        (([⟨0, 0, 0⟩, ⟨1, 0, 0⟩, ⟨0, 1, 0⟩, ⟨1, 1, 1⟩] : List (Vec3 ℚ)).map (Vec3.smul (-2)))
        ⟨4, [[0, 1, 2, 3]]⟩ ⟨0, 0, []⟩ =
        .returned ⟨C.rows, C.cols, C.data.map (fun row => row.map (fun c => |(-2 : ℚ)| * c))⟩
          flipped :=
  ⟨by norm_num, rfl, by simp [MatF.Valid],
    C18_tet_scaling (fun x : ℚ => x) [⟨0, 0, 0⟩, ⟨1, 0, 0⟩, ⟨0, 1, 0⟩, ⟨1, 1, 1⟩]
      ⟨4, [[0, 1, 2, 3]]⟩ ⟨0, 0, []⟩ (-2) (by norm_num) rfl (by simp [MatF.Valid])⟩

end tetScaling

/-! ## Permuting the vertices of a triangle -/

section vertexPermutation

variable {α : Type} [LinearOrderedField α]

theorem Vec3.pow2sum_sub_comm (p q : Vec3 α) : (p.sub q).pow2sum = (q.sub p).pow2sum := by
  simp only [Vec3.pow2sum, Vec3.sub]; ring

theorem permuteEntries_three {β : Type} (d : β) (p : Equiv.Perm (Fin 3)) (x0 x1 x2 : β)
    (rest : List β) :
    permuteEntries d p (x0 :: x1 :: x2 :: rest) =
      [![x0, x1, x2] (p 0), ![x0, x1, x2] (p 1), ![x0, x1, x2] (p 2)] := by
  have h : ∀ a : Fin 3, (x0 :: x1 :: x2 :: rest).getD a d = ![x0, x1, x2] a := by
    intro a
    fin_cases a <;> rfl
  simp only [permuteEntries, List.ofFn_succ, List.ofFn_zero, h]
  rfl

/-- Heron's doubled area does not depend on the order of the three lengths. -/
theorem dblA_perm (sqrt : α → α) (x y z : α) :
    dblA sqrt (y, x, z) = dblA sqrt (x, y, z) ∧ dblA sqrt (x, z, y) = dblA sqrt (x, y, z) ∧
    dblA sqrt (z, y, x) = dblA sqrt (x, y, z) ∧ dblA sqrt (y, z, x) = dblA sqrt (x, y, z) ∧
    dblA sqrt (z, x, y) = dblA sqrt (x, y, z) := by
  refine ⟨?_, ?_, ?_, ?_, ?_⟩ <;>
  · simp only [dblA, s]
    congr 2
    ring

/-- The row computed from permuted edge lengths is the permuted row. -/
theorem triangleRow_perm (sqrt : α → α) (L0 L1 L2 : α) (a b c : Fin 3)
    (hab : a ≠ b) (hac : a ≠ c) (hbc : b ≠ c) :
    triangleRow sqrt (![L0, L1, L2] a, ![L0, L1, L2] b, ![L0, L1, L2] c) =
      [(triangleRow sqrt (L0, L1, L2)).getD a 0, (triangleRow sqrt (L0, L1, L2)).getD b 0,
        (triangleRow sqrt (L0, L1, L2)).getD c 0] := by
  obtain ⟨d1, d2, d3, d4, d5⟩ := dblA_perm sqrt L0 L1 L2
  fin_cases a <;> fin_cases b <;> fin_cases c <;>
    first
    | exact absurd rfl hab
    | exact absurd rfl hac
    | exact absurd rfl hbc
    | (simp only [triangleRow, Fin.zero_eta, Fin.mk_one, Fin.reduceFinMk, Matrix.cons_val_zero,
        Matrix.cons_val_one, Matrix.head_cons, Matrix.cons_val_two, Matrix.tail_cons,
        d1, d2, d3, d4, d5, List.cons.injEq, and_true]
       refine ⟨?_, ?_, ?_⟩ <;> (simp <;> ring))

/-- The edge lengths of the permuted triangle are the permuted edge lengths. -/
theorem l_perm (sqrt : α → α) (v0 v1 v2 : Vec3 α) (a b c : Fin 3)
    (hab : a ≠ b) (hac : a ≠ c) (hbc : b ≠ c) :
    l sqrt (![v0, v1, v2] a) (![v0, v1, v2] b) (![v0, v1, v2] c) =
      (![(l sqrt v0 v1 v2).1, (l sqrt v0 v1 v2).2.1, (l sqrt v0 v1 v2).2.2] a,
        ![(l sqrt v0 v1 v2).1, (l sqrt v0 v1 v2).2.1, (l sqrt v0 v1 v2).2.2] b,
        ![(l sqrt v0 v1 v2).1, (l sqrt v0 v1 v2).2.1, (l sqrt v0 v1 v2).2.2] c) := by
  have e0 := Vec3.pow2sum_sub_comm v2 v1
  have e1 := Vec3.pow2sum_sub_comm v0 v2
  have e2 := Vec3.pow2sum_sub_comm v1 v0
  fin_cases a <;> fin_cases b <;> fin_cases c <;>
    first
    | exact absurd rfl hab
    | exact absurd rfl hac
    | exact absurd rfl hbc
    | simp only [l, Fin.zero_eta, Fin.mk_one, Fin.reduceFinMk, Matrix.cons_val_zero,
        Matrix.cons_val_one, Matrix.head_cons, Matrix.cons_val_two, Matrix.tail_cons,
        e0, e1, e2]

/-- The loop body on a row whose three indices are permuted by `p` gives the
row of weights permuted by `p`. -/
theorem triangleElement_permute (sqrt : α → α) (V : List (Vec3 α)) (p : Equiv.Perm (Fin 3))
    (r : List Nat) (row : List α) (h : triangleElement sqrt V r = some row) :
    triangleElement sqrt V (permuteEntries 0 p r) = some (permuteEntries 0 p row) := by
  unfold triangleElement at h
  cases hr : readTriangle V r with
  | none => simp [hr] at h
  | some t =>
    obtain ⟨v0, v1, v2⟩ := t
    simp only [hr, Option.some.injEq] at h
    subst h
    obtain ⟨i0, i1, i2, h0, h1, h2, w0, w1, w2⟩ := (readTriangle_eq_some_iff V r v0 v1 v2).1 hr
    have hr3 : ∃ rest, r = i0 :: i1 :: i2 :: rest := by
      match r, h0, h1, h2 with
      | x0 :: x1 :: x2 :: rest, h0, h1, h2 =>
        simp only [List.getElem?_cons_zero, List.getElem?_cons_succ, Option.some.injEq]
          at h0 h1 h2
        exact ⟨rest, by rw [h0, h1, h2]⟩
    obtain ⟨rest, rfl⟩ := hr3
    have hab : p 0 ≠ p 1 := fun e => absurd (p.injective e) (by decide)
    have hac : p 0 ≠ p 2 := fun e => absurd (p.injective e) (by decide)
    have hbc : p 1 ≠ p 2 := fun e => absurd (p.injective e) (by decide)
    have hV : ∀ a : Fin 3, V[![i0, i1, i2] a]? = some (![v0, v1, v2] a) := by
      intro a
      fin_cases a
      · exact w0
      · exact w1
      · exact w2
    have hread : readTriangle V (permuteEntries 0 p (i0 :: i1 :: i2 :: rest)) =
        some (![v0, v1, v2] (p 0), ![v0, v1, v2] (p 1), ![v0, v1, v2] (p 2)) := by
      rw [permuteEntries_three, readTriangle_eq_some_iff]
      exact ⟨_, _, _, rfl, rfl, rfl, hV (p 0), hV (p 1), hV (p 2)⟩
    rw [triangleElement_of_read sqrt V _ _ _ _ hread, l_perm sqrt v0 v1 v2 _ _ _ hab hac hbc,
      triangleRow_perm sqrt _ _ _ _ _ _ hab hac hbc]
    have hrow : ∀ a : Fin 3, (triangleRow sqrt (l sqrt v0 v1 v2)).getD a 0 =
        ![(triangleRow sqrt (l sqrt v0 v1 v2)).getD 0 0,
          (triangleRow sqrt (l sqrt v0 v1 v2)).getD 1 0,
          (triangleRow sqrt (l sqrt v0 v1 v2)).getD 2 0] a := by
      intro a
      fin_cases a <;> rfl
    have hperm : permuteEntries 0 p (triangleRow sqrt (l sqrt v0 v1 v2)) =
        [(triangleRow sqrt (l sqrt v0 v1 v2)).getD (p 0) 0,
          (triangleRow sqrt (l sqrt v0 v1 v2)).getD (p 1) 0,
          (triangleRow sqrt (l sqrt v0 v1 v2)).getD (p 2) 0] := by
      simp only [permuteEntries, List.ofFn_succ, List.ofFn_zero]
      rfl
    rw [hperm]

/-- C19: column k of a triangle's row belongs to vertex k whatever the vertex
order. For every valid triangle batch and every permutation p of {0,1,2}, the
call on the element array whose rows are (F(i,p 0), F(i,p 1), F(i,p 2)) returns
the rows (C(i,p 0), C(i,p 1), C(i,p 2)): permuting the vertices of a triangle,
reversing its orientation included, changes no weight value, only the column
positions. -/
theorem C19_vertex_permutation (sqrt : α → α) (V : List (Vec3 α)) (F : MatF) (C0 : MatC α)
    (hc : F.cols = 3) (hv : F.Valid V) (p : Equiv.Perm (Fin 3)) :
    ∃ C flipped, cotangent sqrt V F C0 = .returned C flipped ∧
      cotangent sqrt V ⟨F.cols, F.data.map (permuteEntries 0 p)⟩ C0 =
        .returned ⟨C.rows, C.cols, C.data.map (permuteEntries 0 p)⟩ flipped := by
  obtain ⟨rows, hl, hf⟩ := triangleLoop_of_valid sqrt V F hc hv
  have hf' : List.Forall₂ (fun r row => triangleElement sqrt V r = some row)
      (F.data.map (permuteEntries 0 p)) (rows.map (permuteEntries 0 p)) := by
    rw [List.forall₂_map_left_iff, List.forall₂_map_right_iff]
    exact hf.imp (fun r row h => triangleElement_permute sqrt V p r row h)
  have hl' := (triangleLoop_eq_some_iff sqrt V _ _).2 hf'
  refine ⟨_, _, cotangent_of_triangleLoop sqrt V F C0 hc rows hl, ?_⟩
  rw [cotangent_of_triangleLoop sqrt V ⟨F.cols, F.data.map (permuteEntries 0 p)⟩ C0 hc _ hl']
  simp [MatF.rows]

end vertexPermutation

section vertexPermutationWitness

/-- Reversing the orientation of the triangle (0,0,0), (3,0,0), (0,4,0) by
swapping its first two vertices swaps the first two columns of its row. -/
theorem C19_vertex_permutation_witness :
    (⟨3, [[0, 1, 2]]⟩ : MatF).cols = 3 ∧
    (⟨3, [[0, 1, 2]]⟩ : MatF).Valid ([⟨0, 0, 0⟩, ⟨3, 0, 0⟩, ⟨0, 4, 0⟩] : List (Vec3 ℝ)) ∧
    ([[0, 1, 2]] : List (List Nat)).map
      (permuteEntries 0 (Equiv.swap (0 : Fin 3) (1 : Fin 3))) = [[1, 0, 2]] ∧
    ∃ C flipped,
      cotangent Real.sqrt [⟨0, 0, 0⟩, ⟨3, 0, 0⟩, ⟨0, 4, 0⟩] ⟨3, [[0, 1, 2]]⟩ ⟨0, 0, []⟩
        = .returned C flipped ∧
      cotangent Real.sqrt [⟨0, 0, 0⟩, ⟨3, 0, 0⟩, ⟨0, 4, 0⟩]
        ⟨3, ([[0, 1, 2]] : List (List Nat)).map
          (permuteEntries 0 (Equiv.swap (0 : Fin 3) (1 : Fin 3)))⟩ ⟨0, 0, []⟩ =
        .returned ⟨C.rows, C.cols,
          C.data.map (permuteEntries 0 (Equiv.swap (0 : Fin 3) (1 : Fin 3)))⟩ flipped :=
  ⟨rfl, by simp [MatF.Valid], by decide,
    C19_vertex_permutation Real.sqrt [⟨0, 0, 0⟩, ⟨3, 0, 0⟩, ⟨0, 4, 0⟩] ⟨3, [[0, 1, 2]]⟩
      ⟨0, 0, []⟩ rfl (by simp [MatF.Valid]) (Equiv.swap (0 : Fin 3) (1 : Fin 3))⟩

end vertexPermutationWitness

end igl
